import Mathlib

/-!
# Verification of the MiniMe avatar state machine

Shallow embedding of the avatar state machine and animation synthesizer of
the `mini-me-backend` frontend:

* `src/src/state/useMiniMeState.ts` — the `useMiniMeState` hook: backend
  event handling, the wake-hold timeout, the mic-level (listening) effect,
  the sleep timeout, and the blink display projection;
* `src/src/components/MiniMeFace.tsx` — the per-state animation generators,
  the animation-frame effect, and the 2D-to-12-vector column average;
* `src/src/state/useBlink.ts` — `generateBlinkPattern`;
* `src/unnamed/part_002` — the `Matrix` renderer's `getCellColor`;
* `src/src/App.tsx` — the `finalLevels` memo.

React semantics are modeled explicitly: component state (`useState`) and the
timer refs (`useRef`) are fields of a `Machine` record; each `useEffect` is a
function that runs only when its dependency list changed between two renders
(`effectsPass` compares the previous and current render), and state updates
made by an effect trigger a further render/effect pass (`stabilize` runs
three passes, which is enough: the dependency fields can change in at most
one pass and all bodies are idempotent at a fixpoint).

`setTimeout` timers are modeled as `Option ℕ` absolute deadlines on a
millisecond clock `now`; `clearTimeout` sets the field to `none`, a pending
timer may fire once its deadline is reached.  JavaScript numbers are modeled
as exact rationals `ℚ`; `Math.sin` and `Math.sqrt` are abstract function
parameters `sinq`, `sqrtq` (theorems assume only `|sinq x| ≤ 1`,
`sinq 0 = 0`, `0 ≤ sqrtq x`, which hold of the IEEE functions).

The numeric literals `0.1` and `0.03` of the state machine are written
`mkRat 1 10` and `mkRat 3 100` (the same rationals in kernel-evaluable
form; see `mkRat_one_ten` and `mkRat_three_hundred` below) so that concrete
machine runs can be checked by `decide`.
-/

/-- `mkRat 1 10` is the literal `0.1` of the source. -/
theorem mkRat_one_ten : mkRat 1 10 = (1 : ℚ)/10 := by
  rw [Rat.mkRat_eq_div]; norm_num

/-- `mkRat 3 100` is the literal `0.03` of the source. -/
theorem mkRat_three_hundred : mkRat 3 100 = (3 : ℚ)/100 := by
  rw [Rat.mkRat_eq_div]; norm_num

/-- The `MiniMeState` union type of `useMiniMeState.ts` (also
`MiniMeFace.tsx`): seven named states, `blink` being a display-only
overlay. -/
inductive MiniMeState where
  | idle
  | wake
  | listening
  | thinking
  | talk
  | blink
  | sleep
deriving DecidableEq

/-- A backend event as received by `useMiniMeState`:
`{ event: string; levels?: number[] }`.  The `event` field is a free-form
string, matching the source's string comparisons (unknown strings fall
through the `if`/`else if` chain and are ignored). -/
structure BackendEvent where
  event : String
  levels : Option (List ℚ)

/-- The whole observable state of the `useMiniMeState` hook:
the `MiniMeStateConfig` record (`state`, `levels`, `wakeStartTime`; the
`micLevel` copy and `lastBackendEvent` bookkeeping fields of the source are
behaviourally inert and folded into `micLevel` here), the `micLevel` prop,
the millisecond clock, and the three named timers as absolute deadlines:
`wakeHoldT` (the 500 ms wake timeout of lines 96-107), `listenIdleT`
(`idleTimeoutRef`, the 3000 ms listening-to-idle timeout of lines 127-139)
and `idleSleepT` (`sleepTimeoutRef`, the 10000 ms sleep timeout of lines
150-167). -/
structure Machine where
  state : MiniMeState
  levels : List ℚ
  micLevel : ℚ
  wakeStart : Option ℕ
  now : ℕ
  wakeHoldT : Option ℕ
  listenIdleT : Option ℕ
  idleSleepT : Option ℕ
deriving DecidableEq

/-- The backend-event handler, `useMiniMeState.ts` lines 44-93: an
`if`/`else if` chain on `backendEvent.event`.  `talk` keeps
`backendEvent.levels || []`; every branch stamps `lastBackendEvent` (not
modeled); only `wake` sets `wakeStartTime`.  Unknown event strings leave the
config untouched. -/
def handleBackendEvent (m : Machine) (e : BackendEvent) : Machine :=
  if e.event = "wake" then
    { m with state := .wake, levels := [], wakeStart := some m.now }
  else if e.event = "thinking" then
    { m with state := .thinking, levels := [] }
  else if e.event = "talk" then
    { m with state := .talk, levels := e.levels.getD [] }
  else if e.event = "idle" then
    { m with state := .idle, levels := [] }
  else if e.event = "sleep" then
    { m with state := .sleep, levels := [] }
  else if e.event = "listening" then
    { m with state := .listening, levels := [] }
  else m

/-- The wake-hold effect, `useMiniMeState.ts` lines 96-107, dependencies
`[config.state, config.wakeStartTime]`.  Its cleanup clears the pending
timeout; its body arms a 500 ms timeout when `config.state === 'wake' &&
config.wakeStartTime` (JavaScript truthiness: a `wakeStartTime` of `0` is
falsy, hence the `getD 0 ≠ 0` test).  Conditions read the committed render
`render`; updates apply to the accumulated machine `acc`. -/
def wakeEffectBody (render acc : Machine) : Machine :=
  let acc := { acc with wakeHoldT := none }
  if render.state = .wake ∧ render.wakeStart.getD 0 ≠ 0 then
    { acc with wakeHoldT := some (acc.now + 500) }
  else acc

/-- The mic-level effect, `useMiniMeState.ts` lines 110-147, dependencies
`[micLevel, config.state]`: early return in `talk`/`wake`/`thinking`/`sleep`;
above 0.1 clear `idleTimeoutRef` and force `listening` with 12 copies of the
mic level; below 0.03 while `listening` clear and re-arm the 3000 ms
idle-reversion timeout; otherwise while `listening` refresh the levels. -/
def micEffectBody (render acc : Machine) : Machine :=
  if render.state = .talk ∨ render.state = .wake ∨
      render.state = .thinking ∨ render.state = .sleep then
    acc
  else if render.micLevel > mkRat 1 10 then
    { acc with listenIdleT := none, state := .listening,
               levels := List.replicate 12 render.micLevel }
  else if render.state = .listening ∧ render.micLevel < mkRat 3 100 then
    { acc with listenIdleT := some (acc.now + 3000) }
  else if render.state = .listening then
    { acc with levels := List.replicate 12 render.micLevel }
  else acc

/-- The sleep effect, `useMiniMeState.ts` lines 150-167, dependencies
`[config.state, micLevel]`: while `idle` and silent (mic below 0.03),
clear and re-arm the 10000 ms sleep timeout; in every other case clear it. -/
def sleepEffectBody (render acc : Machine) : Machine :=
  if render.state = .idle ∧ render.micLevel < mkRat 3 100 then
    { acc with idleSleepT := some (acc.now + 10000) }
  else
    { acc with idleSleepT := none }

/-- One React effect pass: each of the three effects runs exactly when its
dependency list changed between the previous render `prev` and the current
render `cur` (source dependency lists: `[config.state, config.wakeStartTime]`,
`[micLevel, config.state]`, `[config.state, micLevel]`).  Bodies read the
current render and their updates accumulate in declaration order. -/
def effectsPass (prev cur : Machine) : Machine :=
  let m1 := if prev.state ≠ cur.state ∨ prev.wakeStart ≠ cur.wakeStart then
    wakeEffectBody cur cur else cur
  let m2 := if prev.micLevel ≠ cur.micLevel ∨ prev.state ≠ cur.state then
    micEffectBody cur m1 else m1
  if prev.state ≠ cur.state ∨ prev.micLevel ≠ cur.micLevel then
    sleepEffectBody cur m2 else m2

/-- Run effect passes until quiescent.  A state update made inside a pass
triggers another render and hence another pass; the only effect that can
change a dependency field is the mic effect forcing `state := listening`,
which is stable, so three passes always reach the fixpoint (a pass whose
previous and current renders agree runs no effect at all). -/
def stabilize (prev cur : Machine) : Machine :=
  let c1 := effectsPass prev cur
  let c2 := effectsPass cur c1
  effectsPass c1 c2

/-- Arrival of a backend event: the handler effect (dependency
`[backendEvent]`) updates the config, after which the dependent effects
re-run to quiescence. -/
def processEvent (m : Machine) (e : BackendEvent) : Machine :=
  stabilize m (handleBackendEvent m e)

/-- Arrival of a new amplitude sample: the `micLevel` prop changes, after
which the dependent effects re-run to quiescence.  (A sample equal to the
current value is invisible to React's `Object.is` dependency comparison.) -/
def sampleMic (m : Machine) (a : ℚ) : Machine :=
  stabilize m { m with micLevel := a }

/-- The wake-hold timeout callback, `useMiniMeState.ts` lines 98-104: when
the 500 ms deadline is reached the pending timer is consumed and the config
becomes `idle` with `wakeStartTime: null`; effects then re-run. -/
def fireWakeHold (m : Machine) : Machine :=
  match m.wakeHoldT with
  | some t =>
    if t ≤ m.now then
      stabilize m { m with state := .idle, wakeStart := none, wakeHoldT := none }
    else m
  | none => m

/-- The listening-to-idle timeout callback, `useMiniMeState.ts` lines
133-139: on its 3000 ms deadline the config becomes `idle` with empty
levels; effects then re-run. -/
def fireListenIdle (m : Machine) : Machine :=
  match m.listenIdleT with
  | some t =>
    if t ≤ m.now then
      stabilize m { m with state := .idle, levels := [], listenIdleT := none }
    else m
  | none => m

/-- The sleep timeout callback, `useMiniMeState.ts` lines 155-161: on its
10000 ms deadline the config becomes `sleep` with empty levels; effects then
re-run. -/
def fireIdleSleep (m : Machine) : Machine :=
  match m.idleSleepT with
  | some t =>
    if t ≤ m.now then
      stabilize m { m with state := .sleep, levels := [], idleSleepT := none }
    else m
  | none => m

/-- The initial `useState` value, `useMiniMeState.ts` lines 29-35: `idle`,
empty levels, no timers, mounted at clock time `t` with a silent mic. -/
def initMachine (t : ℕ) : Machine :=
  { state := .idle, levels := [], micLevel := 0, wakeStart := none,
    now := t, wakeHoldT := none, listenIdleT := none, idleSleepT := none }

/-- On mount every effect runs once unconditionally (first render), then the
cascade settles.  In particular the sleep effect arms the 10000 ms timer
immediately (idle and silent). -/
def mountMachine (t : ℕ) : Machine :=
  let m := initMachine t
  let c1 := sleepEffectBody m (micEffectBody m (wakeEffectBody m m))
  let c2 := effectsPass m c1
  effectsPass c1 c2

/-- The blink display projection, `useMiniMeState.ts` lines 170-171:
`finalState = isBlinking && config.state !== 'talk' ? 'blink' :
config.state`. -/
def finalState (isBlinking : Bool) (s : MiniMeState) : MiniMeState :=
  if isBlinking = true ∧ s ≠ .talk then .blink else s

/-- A signal delivered to the state machine: a backend event, a new
amplitude sample, the passage of `d` milliseconds, or the firing of one of
the three named timeouts. -/
inductive SMInput where
  | ev : BackendEvent → SMInput
  | mic : ℚ → SMInput
  | tick : ℕ → SMInput
  | fireWake : SMInput
  | fireListen : SMInput
  | fireSleep : SMInput

/-- Apply one signal to the machine.  Firing a timer that is not pending or
not yet due is a no-op (such a callback does not exist / has not been
scheduled yet); legality of a trace is a separate predicate (`Legal`). -/
def applyInput (m : Machine) : SMInput → Machine
  | .ev e => processEvent m e
  | .mic a => sampleMic m a
  | .tick d => { m with now := m.now + d }
  | .fireWake => fireWakeHold m
  | .fireListen => fireListenIdle m
  | .fireSleep => fireIdleSleep m

/-- Run a list of signals in order. -/
def runInputs (m : Machine) : List SMInput → Machine
  | [] => m
  | i :: l => runInputs (applyInput m i) l

/-- `leB t x`: a pending deadline `t` has not been passed by time `x`
(vacuously true when no timer is pending). -/
def leB : Option ℕ → ℕ → Bool
  | some t, x => decide (x ≤ t)
  | none, _ => true

/-- `dueB t x`: a timer is pending and its deadline `t` has been reached at
time `x`. -/
def dueB : Option ℕ → ℕ → Bool
  | some t, x => decide (t ≤ x)
  | none, _ => false

/-- Timed legality of one signal: time may advance only up to the earliest
pending deadline (a `setTimeout` callback cannot be silently skipped), and a
timer may fire only when it is pending and due. -/
def inputOKb (m : Machine) : SMInput → Bool
  | .tick d => leB m.wakeHoldT (m.now + d) && leB m.listenIdleT (m.now + d) &&
      leB m.idleSleepT (m.now + d)
  | .fireWake => dueB m.wakeHoldT m.now
  | .fireListen => dueB m.listenIdleT m.now
  | .fireSleep => dueB m.idleSleepT m.now
  | _ => true

/-- A legal timed trace: every signal is legal in the machine state it is
applied to. -/
inductive Legal : Machine → List SMInput → Prop
  | nil (m : Machine) : Legal m []
  | cons (m : Machine) (i : SMInput) (l : List SMInput) :
      inputOKb m i = true → Legal (applyInput m i) l → Legal m (i :: l)


/-- JavaScript's `%` operator on nonnegative numbers: `x % y = x - y*trunc(x/y)`,
which for `x ≥ 0, y > 0` equals `x - y*⌊x/y⌋`.  Used by the thinking
animation's `(col + row + frame * 0.2) % 4`, whose left operand is always
nonnegative. -/
def jsMod (x y : ℚ) : ℚ := x - y * (⌊x / y⌋ : ℤ)

/-- `generateIdleWave` of `MiniMeFace.tsx` lines 13-23: for every row and
column, `Math.max(0, Math.sin((col + frame*0.1)*0.5)*0.3 + 0.3)`.  The
`for` loops pushing onto `frames` are rendered as maps over index ranges. -/
def generateIdleWave (sinq : ℚ → ℚ) (frame : ℕ) (rows cols : ℕ) : List (List ℚ) :=
  (List.range rows).map fun (_row : ℕ) =>
    (List.range cols).map fun (col : ℕ) =>
      max 0 (sinq (((col : ℚ) + (frame : ℚ) * (1/10)) * (1/2)) * (3/10) + 3/10)

/-- `generateWakePulse` of `MiniMeFace.tsx` lines 26-44: a radial pulse,
`intensity = Math.max(0, 1 - (dist/maxDist)*2) * pulse` scaled by `0.9`,
with `pulse = sin(frame*0.3)*0.5 + 0.5`, `dist` the Euclidean distance to
the center cell `(⌊rows/2⌋, ⌊cols/2⌋)` and `maxDist = sqrt(rows² + cols²)`. -/
def generateWakePulse (sinq sqrtq : ℚ → ℚ) (frame : ℕ) (rows cols : ℕ) :
    List (List ℚ) :=
  let centerRow : ℕ := rows / 2
  let centerCol : ℕ := cols / 2
  let pulse := sinq ((frame : ℚ) * (3/10)) * (1/2) + 1/2
  (List.range rows).map fun (row : ℕ) =>
    (List.range cols).map fun (col : ℕ) =>
      let dist := sqrtq (((row : ℚ) - (centerRow : ℚ))^2 +
        ((col : ℚ) - (centerCol : ℚ))^2)
      let maxDist := sqrtq ((rows : ℚ)^2 + (cols : ℚ)^2)
      max 0 (1 - dist / maxDist * 2) * pulse * (9/10)

/-- `generateThinkingPulse` of `MiniMeFace.tsx` lines 47-59:
`pulse = sin(frame*0.2)*0.4 + 0.5`; each cell's phase is
`(col + row + frame*0.2) % 4` and the cell shows `pulse` when `phase < 2`,
else `pulse * 0.3`. -/
def generateThinkingPulse (sinq : ℚ → ℚ) (frame : ℕ) (rows cols : ℕ) :
    List (List ℚ) :=
  let pulse := sinq ((frame : ℚ) * (1/5)) * (2/5) + 1/2
  (List.range rows).map fun (row : ℕ) =>
    (List.range cols).map fun (col : ℕ) =>
      let phase := jsMod ((col : ℚ) + (row : ℚ) + (frame : ℚ) * (1/5)) 4
      if phase < 2 then pulse else pulse * (3/10)

/-- `generateSleepPattern` of `MiniMeFace.tsx` lines 62-73: the uniform dim
value `sin(frame*0.05)*0.1 + 0.1` in every cell. -/
def generateSleepPattern (sinq : ℚ → ℚ) (frame : ℕ) (rows cols : ℕ) :
    List (List ℚ) :=
  let dim := sinq ((frame : ℚ) * (1/20)) * (1/10) + 1/10
  (List.range rows).map fun (_row : ℕ) =>
    (List.range cols).map fun (_col : ℕ) => dim

/-- `generateBlinkPattern` of `useBlink.ts` lines 48-62: the top two rows at
`0.9`, every other row at `0.1`. -/
def generateBlinkPattern (rows cols : ℕ) : List (List ℚ) :=
  (List.range rows).map fun (row : ℕ) =>
    (List.range cols).map fun (_col : ℕ) =>
      if row < 2 then (9 : ℚ)/10 else 1/10

/-- The repeated column-average projection of `MiniMeFace.tsx` (lines
102-105, 108-111, 114-117, 120-123, 126-129): for each of the `cols`
columns, take that column of every row and divide the sum by the number of
rows. -/
def columnAverage (frames : List (List ℚ)) (cols : ℕ) : List ℚ :=
  (List.range cols).map fun (col : ℕ) =>
    let colValues := frames.map fun (row : List ℚ) => row.getD col 0
    colValues.sum / (colValues.length : ℚ)

/-- The `animationLevels` computation of `MiniMeFace.tsx` lines 90-133:
`talk` and `listening` pass the supplied levels through (empty levels
defaulting to twelve zeros); the other five states synthesize a 7×12
brightness field and column-average it to twelve values.  (The source's
final `else` branch is unreachable: the seven named states are all
handled.) -/
def faceLevels (sinq sqrtq : ℚ → ℚ) (state : MiniMeState) (levels : List ℚ)
    (frame : ℕ) : List ℚ :=
  match state with
  | .talk => if 0 < levels.length then levels else List.replicate 12 0
  | .listening => if 0 < levels.length then levels else List.replicate 12 0
  | .blink => columnAverage (generateBlinkPattern 7 12) 12
  | .idle => columnAverage (generateIdleWave sinq frame 7 12) 12
  | .wake => columnAverage (generateWakePulse sinq sqrtq frame 7 12) 12
  | .thinking => columnAverage (generateThinkingPulse sinq frame 7 12) 12
  | .sleep => columnAverage (generateSleepPattern sinq frame 7 12) 12

/-- The `finalLevels` memo of `App.tsx`: while the displayed state is
`listening` and the mic is above `0.1`, substitute twelve copies of the
live mic level; otherwise pass the state machine's levels through. -/
def finalLevels (state : MiniMeState) (levels : List ℚ) (micLevel : ℚ) :
    List ℚ :=
  if state = .listening ∧ micLevel > mkRat 1 10 then
    List.replicate 12 micLevel
  else levels

/-- The level vector the renderer receives: `App.tsx` feeds
`useMiniMeState`'s display state and `finalLevels` into `MiniMeFace`, which
computes `animationLevels` for the `Matrix`. -/
def emittedLevels (sinq sqrtq : ℚ → ℚ) (m : Machine) (isBlinking : Bool)
    (frame : ℕ) : List ℚ :=
  let s := finalState isBlinking m.state
  faceLevels sinq sqrtq s (finalLevels s m.levels m.micLevel) frame

/-- The animation-frame effect of `MiniMeFace.tsx` lines 79-88, dependency
`[state]`, entry action: for `idle`, `wake`, `thinking`, `sleep` an interval
is started and the counter keeps its current value; for any other state the
counter is set to `0`. -/
def frameOnStateChange (s : MiniMeState) (frame : ℕ) : ℕ :=
  if s = .idle ∨ s = .wake ∨ s = .thinking ∨ s = .sleep then frame else 0

/-- One tick of the animation interval of `MiniMeFace.tsx` lines 81-84: the
counter increments only while an interval is running, i.e. in `idle`,
`wake`, `thinking`, `sleep`. -/
def frameOnTick (s : MiniMeState) (frame : ℕ) : ℕ :=
  if s = .idle ∨ s = .wake ∨ s = .thinking ∨ s = .sleep then frame + 1 else frame

/-- The animation interval period in milliseconds (`setInterval(..., 50)`,
i.e. 20 frames per second). -/
def frameTickIntervalMs : ℕ := 50

/-- The `mode` prop of the `Matrix` component (`'vu' | 'static'`). -/
inductive MatrixMode where
  | vu
  | static
deriving DecidableEq

/-- A rendered cell color: `palette.on` or `palette.off`. -/
inductive CellColor where
  | on
  | off
deriving DecidableEq

/-- `getCellColor` of the `Matrix` component (`src/unnamed/part_002` lines
25-41): in `vu` mode with a nonempty levels array, column `col` reads
`levels[Math.floor((col/cols) * levels.length)] || 0` (an absent entry or a
zero level both yield `0`, modeled by `List.getD _ 0`) and the cell lights
up when the level exceeds `(rows - 1 - row) / rows`; in `static` mode or
with no levels every cell is off. -/
def getCellColor (rows cols : ℕ) (mode : MatrixMode) (levels : List ℚ)
    (row col : ℕ) : CellColor :=
  if mode = .vu ∧ 0 < levels.length then
    let levelIndex := (⌊((col : ℚ) / (cols : ℚ)) * (levels.length : ℚ)⌋).toNat
    let level := levels.getD levelIndex 0
    let threshold := ((rows : ℚ) - 1 - (row : ℚ)) / (rows : ℚ)
    if threshold < level then .on else .off
  else .off

/-! ## A small calculus for effect passes

Each lemma characterizes `effectsPass` for one shape of the current render;
together with the two `stabilize` collapse lemmas they let every operation
of the machine be computed symbolically. -/

/-- A render state in which the mic effect early-returns
(`useMiniMeState.ts` line 112). -/
def Inert4 (s : MiniMeState) : Prop :=
  s = .talk ∨ s = .wake ∨ s = .thinking ∨ s = .sleep

instance (s : MiniMeState) : Decidable (Inert4 s) := by
  unfold Inert4; infer_instance

/-- The two mic thresholds are ordered. -/
theorem mkRat_thresholds : mkRat 3 100 < mkRat 1 10 := by decide

/-- The mic effect does nothing in an inert render state. -/
theorem micEffectBody_inert4 (render acc : Machine) (h : Inert4 render.state) :
    micEffectBody render acc = acc := by
  unfold micEffectBody
  rw [if_pos (show render.state = .talk ∨ render.state = .wake ∨
    render.state = .thinking ∨ render.state = .sleep from h)]

/-- The mic effect on a loud render in a non-inert state forces
`listening`. -/
theorem micEffectBody_loud (render acc : Machine) (h : ¬Inert4 render.state)
    (ha : render.micLevel > mkRat 1 10) :
    micEffectBody render acc =
      { acc with listenIdleT := none, state := .listening,
                 levels := List.replicate 12 render.micLevel } := by
  unfold micEffectBody
  rw [if_neg (show ¬(render.state = .talk ∨ render.state = .wake ∨
    render.state = .thinking ∨ render.state = .sleep) from h), if_pos ha]

/-- The mic effect on a quiet (below 0.03) `listening` render re-arms the
idle-reversion timeout. -/
theorem micEffectBody_quiet (render acc : Machine)
    (h : render.state = .listening) (ha : render.micLevel < mkRat 3 100) :
    micEffectBody render acc =
      { acc with listenIdleT := some (acc.now + 3000) } := by
  have hhi : ¬render.micLevel > mkRat 1 10 :=
    not_lt.mpr (le_of_lt (lt_trans ha mkRat_thresholds))
  unfold micEffectBody
  rw [if_neg (by simp [h]), if_neg hhi, if_pos ⟨h, ha⟩]

/-- The mic effect on a mid-band `listening` render refreshes the levels. -/
theorem micEffectBody_band (render acc : Machine)
    (h : render.state = .listening) (hlo : ¬render.micLevel < mkRat 3 100)
    (hhi : ¬render.micLevel > mkRat 1 10) :
    micEffectBody render acc =
      { acc with levels := List.replicate 12 render.micLevel } := by
  unfold micEffectBody
  rw [if_neg (by simp [h]), if_neg hhi, if_neg (by simp [hlo]), if_pos h]

/-- The mic effect does nothing on a non-loud render that is neither inert
nor `listening` (an `idle` or `blink` render). -/
theorem micEffectBody_still (render acc : Machine) (h : ¬Inert4 render.state)
    (hl : render.state ≠ .listening) (hhi : ¬render.micLevel > mkRat 1 10) :
    micEffectBody render acc = acc := by
  unfold micEffectBody
  rw [if_neg (show ¬(render.state = .talk ∨ render.state = .wake ∨
      render.state = .thinking ∨ render.state = .sleep) from h),
    if_neg hhi, if_neg (by simp [hl]), if_neg (by simp [hl])]

/-- The wake effect in one equation: clear, then re-arm when the render is
`wake` with a truthy `wakeStartTime`. -/
theorem wakeEffectBody_eq (render acc : Machine) :
    wakeEffectBody render acc =
      { acc with wakeHoldT :=
          (if render.state = .wake ∧ render.wakeStart.getD 0 ≠ 0 then
            some (acc.now + 500) else none) } := by
  unfold wakeEffectBody
  split_ifs <;> rfl

/-- The sleep effect in one equation: arm while `idle` and silent, clear
otherwise. -/
theorem sleepEffectBody_eq (render acc : Machine) :
    sleepEffectBody render acc =
      { acc with idleSleepT :=
          (if render.state = .idle ∧ render.micLevel < mkRat 3 100 then
            some (acc.now + 10000) else none) } := by
  unfold sleepEffectBody
  split_ifs <;> rfl

/-- An effect pass never changes the mic level, the clock or
`wakeStartTime`. -/
theorem effectsPass_const (prev cur : Machine) :
    (effectsPass prev cur).micLevel = cur.micLevel ∧
    (effectsPass prev cur).now = cur.now ∧
    (effectsPass prev cur).wakeStart = cur.wakeStart := by
  unfold effectsPass wakeEffectBody micEffectBody sleepEffectBody
  split_ifs <;> simp_all

/-- A pass whose dependency fields did not change runs no effect. -/
theorem effectsPass_nodeps (prev cur : Machine) (h1 : prev.state = cur.state)
    (h2 : prev.wakeStart = cur.wakeStart) (h3 : prev.micLevel = cur.micLevel) :
    effectsPass prev cur = cur := by
  unfold effectsPass
  simp [h1, h2, h3]

/-- If the first pass keeps the state field, the remaining passes run no
effect: `stabilize` is that single pass. -/
theorem stabilize_eq_one (prev cur : Machine)
    (hs : (effectsPass prev cur).state = cur.state) :
    stabilize prev cur = effectsPass prev cur := by
  have hc := effectsPass_const prev cur
  have h2 : effectsPass cur (effectsPass prev cur) = effectsPass prev cur :=
    effectsPass_nodeps _ _ hs.symm hc.2.2.symm hc.1.symm
  show effectsPass (effectsPass prev cur)
    (effectsPass cur (effectsPass prev cur)) = effectsPass prev cur
  rw [h2, effectsPass_nodeps _ _ rfl rfl rfl]

/-- If the second pass keeps the state field, the third runs no effect:
`stabilize` is the first two passes. -/
theorem stabilize_eq_two (prev cur : Machine)
    (hs : (effectsPass cur (effectsPass prev cur)).state =
      (effectsPass prev cur).state) :
    stabilize prev cur = effectsPass cur (effectsPass prev cur) := by
  have hc := effectsPass_const cur (effectsPass prev cur)
  show effectsPass (effectsPass prev cur)
    (effectsPass cur (effectsPass prev cur)) =
    effectsPass cur (effectsPass prev cur)
  exact effectsPass_nodeps _ _ hs.symm hc.2.2.symm hc.1.symm

/-- Pass characterization for an inert render state (`talk`, `wake`,
`thinking` or `sleep`): only the two timer effects can act. -/
theorem effectsPass_inert4 (prev cur : Machine) (h : Inert4 cur.state) :
    effectsPass prev cur =
      { cur with
        wakeHoldT :=
          (if prev.state ≠ cur.state ∨ prev.wakeStart ≠ cur.wakeStart then
            (if cur.state = .wake ∧ cur.wakeStart.getD 0 ≠ 0 then
              some (cur.now + 500) else none)
          else cur.wakeHoldT),
        idleSleepT :=
          (if prev.state ≠ cur.state ∨ prev.micLevel ≠ cur.micLevel then none
          else cur.idleSleepT) } := by
  have h4 : cur.state ≠ .idle := by rcases h with h | h | h | h <;> simp [h]
  simp only [effectsPass, wakeEffectBody_eq, sleepEffectBody_eq,
    micEffectBody_inert4 _ _ h]
  split_ifs <;> simp_all

/-- Pass characterization for an `idle` render with a mic level at most
0.1: the mic effect does nothing, the sleep effect arms or clears. -/
theorem effectsPass_idle (prev cur : Machine) (h : cur.state = .idle)
    (ha : ¬cur.micLevel > mkRat 1 10) :
    effectsPass prev cur =
      { cur with
        wakeHoldT :=
          (if prev.state ≠ cur.state ∨ prev.wakeStart ≠ cur.wakeStart then none
          else cur.wakeHoldT),
        idleSleepT :=
          (if prev.state ≠ cur.state ∨ prev.micLevel ≠ cur.micLevel then
            (if cur.micLevel < mkRat 3 100 then some (cur.now + 10000)
             else none)
          else cur.idleSleepT) } := by
  obtain ⟨st, lv, mic, ws, nw, wh, li, isl⟩ := cur
  simp only at h ha
  subst h
  have ht := mkRat_thresholds
  unfold effectsPass wakeEffectBody micEffectBody sleepEffectBody
  split_ifs <;> simp_all

/-- Pass characterization for a `listening` render with a mic level at most
0.1: below 0.03 the idle-reversion timer is re-armed, otherwise the levels
are refreshed. -/
theorem effectsPass_listening (prev cur : Machine) (h : cur.state = .listening)
    (ha : ¬cur.micLevel > mkRat 1 10) :
    effectsPass prev cur =
      { cur with
        wakeHoldT :=
          (if prev.state ≠ cur.state ∨ prev.wakeStart ≠ cur.wakeStart then none
          else cur.wakeHoldT),
        levels :=
          (if prev.micLevel ≠ cur.micLevel ∨ prev.state ≠ cur.state then
            (if cur.micLevel < mkRat 3 100 then cur.levels
             else List.replicate 12 cur.micLevel)
          else cur.levels),
        listenIdleT :=
          (if prev.micLevel ≠ cur.micLevel ∨ prev.state ≠ cur.state then
            (if cur.micLevel < mkRat 3 100 then some (cur.now + 3000)
             else cur.listenIdleT)
          else cur.listenIdleT),
        idleSleepT :=
          (if prev.state ≠ cur.state ∨ prev.micLevel ≠ cur.micLevel then none
          else cur.idleSleepT) } := by
  obtain ⟨st, lv, mic, ws, nw, wh, li, isl⟩ := cur
  simp only at h ha
  subst h
  have ht := mkRat_thresholds
  unfold effectsPass wakeEffectBody micEffectBody sleepEffectBody
  split_ifs <;> simp_all

/-- Pass characterization for a loud render (mic above 0.1) in a non-inert
state: the mic effect forces `listening`. -/
theorem effectsPass_loud (prev cur : Machine) (h : ¬Inert4 cur.state)
    (ha : cur.micLevel > mkRat 1 10)
    (hdep : prev.micLevel ≠ cur.micLevel ∨ prev.state ≠ cur.state) :
    effectsPass prev cur =
      { cur with
        state := .listening,
        levels := List.replicate 12 cur.micLevel,
        listenIdleT := none,
        idleSleepT := none,
        wakeHoldT :=
          (if prev.state ≠ cur.state ∨ prev.wakeStart ≠ cur.wakeStart then none
          else cur.wakeHoldT) } := by
  have h4 : cur.state ≠ .wake := by unfold Inert4 at h; push_neg at h; exact h.2.1
  have h5 : cur.state = .idle → ¬cur.micLevel < mkRat 3 100 := fun _ hlt =>
    absurd (lt_trans hlt mkRat_thresholds) (not_lt.mpr (le_of_lt ha))
  simp only [effectsPass, wakeEffectBody_eq, sleepEffectBody_eq,
    micEffectBody_loud _ _ h ha]
  split_ifs <;> simp_all

/-! ## Operation-level characterizations -/

/-- Stabilizing an unchanged render runs no effect. -/
theorem stabilize_self (m : Machine) : stabilize m m = m := by
  rw [stabilize_eq_one m m (by rw [effectsPass_nodeps m m rfl rfl rfl])]
  exact effectsPass_nodeps m m rfl rfl rfl

/-- A `wake` event: the config becomes `wake` with empty levels and a fresh
`wakeStartTime`; the wake effect re-arms the 500 ms timer unless its
dependencies are unchanged (already `wake` with the same start stamp); the
sleep timer is cleared unless the state was already `wake`. -/
theorem processEvent_wake_eq (m : Machine) (lv : Option (List ℚ)) :
    processEvent m ⟨"wake", lv⟩ =
      { m with
        state := .wake, levels := [], wakeStart := some m.now,
        wakeHoldT :=
          (if m.state ≠ .wake ∨ m.wakeStart ≠ some m.now then
            (if m.now ≠ 0 then some (m.now + 500) else none)
          else m.wakeHoldT),
        idleSleepT := (if m.state ≠ .wake then none else m.idleSleepT) } := by
  have hcur : handleBackendEvent m ⟨"wake", lv⟩ =
      { m with state := .wake, levels := [], wakeStart := some m.now } := rfl
  have hpass := effectsPass_inert4 m
    { m with state := .wake, levels := [], wakeStart := some m.now }
    (Or.inr (Or.inl rfl))
  unfold processEvent
  rw [hcur, stabilize_eq_one _ _ (by rw [hpass]), hpass]
  split_ifs <;> simp_all

/-- A `thinking` event: the config becomes `thinking` with empty levels; a
pending `listenIdleT` is untouched; the wake-hold and sleep timers are
cleared when the state actually changed. -/
theorem processEvent_thinking_eq (m : Machine) (lv : Option (List ℚ)) :
    processEvent m ⟨"thinking", lv⟩ =
      { m with
        state := .thinking, levels := [],
        wakeHoldT := (if m.state ≠ .thinking then none else m.wakeHoldT),
        idleSleepT := (if m.state ≠ .thinking then none else m.idleSleepT) } := by
  have hcur : handleBackendEvent m ⟨"thinking", lv⟩ =
      { m with state := .thinking, levels := [] } := rfl
  have hpass := effectsPass_inert4 m { m with state := .thinking, levels := [] }
    (Or.inr (Or.inr (Or.inl rfl)))
  unfold processEvent
  rw [hcur, stabilize_eq_one _ _ (by rw [hpass]), hpass]
  split_ifs <;> simp_all

/-- A `talk` event: the config becomes `talk` with `event.levels || []`;
a pending `listenIdleT` is untouched. -/
theorem processEvent_talk_eq (m : Machine) (lv : Option (List ℚ)) :
    processEvent m ⟨"talk", lv⟩ =
      { m with
        state := .talk, levels := lv.getD [],
        wakeHoldT := (if m.state ≠ .talk then none else m.wakeHoldT),
        idleSleepT := (if m.state ≠ .talk then none else m.idleSleepT) } := by
  have hcur : handleBackendEvent m ⟨"talk", lv⟩ =
      { m with state := .talk, levels := lv.getD [] } := rfl
  have hpass := effectsPass_inert4 m { m with state := .talk, levels := lv.getD [] }
    (Or.inl rfl)
  unfold processEvent
  rw [hcur, stabilize_eq_one _ _ (by rw [hpass]), hpass]
  split_ifs <;> simp_all

/-- A `sleep` event: the config becomes `sleep` with empty levels; a
pending `listenIdleT` is untouched. -/
theorem processEvent_sleep_eq (m : Machine) (lv : Option (List ℚ)) :
    processEvent m ⟨"sleep", lv⟩ =
      { m with
        state := .sleep, levels := [],
        wakeHoldT := (if m.state ≠ .sleep then none else m.wakeHoldT),
        idleSleepT := (if m.state ≠ .sleep then none else m.idleSleepT) } := by
  have hcur : handleBackendEvent m ⟨"sleep", lv⟩ =
      { m with state := .sleep, levels := [] } := rfl
  have hpass := effectsPass_inert4 m { m with state := .sleep, levels := [] }
    (Or.inr (Or.inr (Or.inr rfl)))
  unfold processEvent
  rw [hcur, stabilize_eq_one _ _ (by rw [hpass]), hpass]
  split_ifs <;> simp_all

/-- An unrecognized event string: no mutation at all. -/
theorem processEvent_unknown_eq (m : Machine) (e : BackendEvent)
    (h1 : e.event ≠ "wake") (h2 : e.event ≠ "thinking") (h3 : e.event ≠ "talk")
    (h4 : e.event ≠ "idle") (h5 : e.event ≠ "sleep")
    (h6 : e.event ≠ "listening") :
    processEvent m e = m := by
  have hcur : handleBackendEvent m e = m := by
    unfold handleBackendEvent
    split_ifs <;> simp_all
  unfold processEvent
  rw [hcur, stabilize_self]

/-- An `idle` event with the mic at or below 0.1: the config becomes `idle`
with empty levels; when the state actually changed, the wake-hold timer is
cleared and the sleep effect re-evaluates (arming on silence); a pending
`listenIdleT` is untouched. -/
theorem processEvent_idle_eq (m : Machine) (lv : Option (List ℚ))
    (ha : ¬m.micLevel > mkRat 1 10) :
    processEvent m ⟨"idle", lv⟩ =
      { m with
        state := .idle, levels := [],
        wakeHoldT := (if m.state ≠ .idle then none else m.wakeHoldT),
        idleSleepT :=
          (if m.state ≠ .idle then
            (if m.micLevel < mkRat 3 100 then some (m.now + 10000) else none)
          else m.idleSleepT) } := by
  have hcur : handleBackendEvent m ⟨"idle", lv⟩ =
      { m with state := .idle, levels := [] } := rfl
  have hpass := effectsPass_idle m { m with state := .idle, levels := [] }
    rfl (by exact ha)
  unfold processEvent
  rw [hcur, stabilize_eq_one _ _ (by rw [hpass]), hpass]
  split_ifs <;> simp_all

/-- A `listening` event with the mic at or below 0.1: the config becomes
`listening` with empty levels; when the state actually changed, the mic
effect re-evaluates: on silence it re-arms `listenIdleT`, otherwise it
refreshes the levels to 12 copies of the mic level. -/
theorem processEvent_listening_eq (m : Machine) (lv : Option (List ℚ))
    (ha : ¬m.micLevel > mkRat 1 10) :
    processEvent m ⟨"listening", lv⟩ =
      { m with
        state := .listening,
        levels :=
          (if m.state ≠ .listening then
            (if m.micLevel < mkRat 3 100 then ([] : List ℚ)
             else List.replicate 12 m.micLevel)
          else ([] : List ℚ)),
        listenIdleT :=
          (if m.state ≠ .listening then
            (if m.micLevel < mkRat 3 100 then some (m.now + 3000)
             else m.listenIdleT)
          else m.listenIdleT),
        wakeHoldT := (if m.state ≠ .listening then none else m.wakeHoldT),
        idleSleepT := (if m.state ≠ .listening then none else m.idleSleepT) } := by
  have hcur : handleBackendEvent m ⟨"listening", lv⟩ =
      { m with state := .listening, levels := [] } := rfl
  have hpass := effectsPass_listening m { m with state := .listening, levels := [] }
    rfl (by exact ha)
  unfold processEvent
  rw [hcur, stabilize_eq_one _ _ (by rw [hpass]), hpass]
  split_ifs <;> simp_all

/-- A mic sample in an inert state (`talk`, `wake`, `thinking`, `sleep`):
only the sleep effect re-runs, clearing its timer; state, levels and the
idle-reversion timer are untouched. -/
theorem sampleMic_inert4_eq (m : Machine) (a : ℚ) (h : Inert4 m.state) :
    sampleMic m a =
      { m with
        micLevel := a,
        idleSleepT := (if m.micLevel ≠ a then none else m.idleSleepT) } := by
  have h4 : m.state ≠ .idle := by rcases h with h | h | h | h <;> simp [h]
  have hpass := effectsPass_inert4 m { m with micLevel := a } (by exact h)
  unfold sampleMic
  rw [stabilize_eq_one _ _ (by rw [hpass]), hpass]
  split_ifs <;> simp_all

/-- A mic sample at or below 0.1 in the `idle` state: only the sleep effect
re-runs (arming on silence, clearing otherwise). -/
theorem sampleMic_idle_eq (m : Machine) (a : ℚ) (h : m.state = .idle)
    (ha : ¬a > mkRat 1 10) :
    sampleMic m a =
      { m with
        micLevel := a,
        idleSleepT :=
          (if m.micLevel ≠ a then
            (if a < mkRat 3 100 then some (m.now + 10000) else none)
          else m.idleSleepT) } := by
  have hpass := effectsPass_idle m { m with micLevel := a } (by exact h)
    (by exact ha)
  unfold sampleMic
  rw [stabilize_eq_one _ _ (by rw [hpass]), hpass]
  split_ifs <;> simp_all

/-- A mic sample at or below 0.1 in the `listening` state: below 0.03 the
idle-reversion timer is re-armed at `now + 3000`; in the band
`[0.03, 0.1]` the levels are refreshed and the pending timer is untouched. -/
theorem sampleMic_listening_eq (m : Machine) (a : ℚ) (h : m.state = .listening)
    (ha : ¬a > mkRat 1 10) :
    sampleMic m a =
      { m with
        micLevel := a,
        levels :=
          (if m.micLevel ≠ a then
            (if a < mkRat 3 100 then m.levels else List.replicate 12 a)
          else m.levels),
        listenIdleT :=
          (if m.micLevel ≠ a then
            (if a < mkRat 3 100 then some (m.now + 3000) else m.listenIdleT)
          else m.listenIdleT),
        idleSleepT := (if m.micLevel ≠ a then none else m.idleSleepT) } := by
  have hpass := effectsPass_listening m { m with micLevel := a } (by exact h)
    (by exact ha)
  unfold sampleMic
  rw [stabilize_eq_one _ _ (by rw [hpass]), hpass]
  split_ifs <;> simp_all

/-- A repeated mic sample (same value): invisible to the dependency
comparison, hence a no-op. -/
theorem sampleMic_same (m : Machine) (a : ℚ) (h : a = m.micLevel) :
    sampleMic m a = m := by
  subst h
  unfold sampleMic
  exact stabilize_self m

/-- A loud mic sample (above 0.1) in a non-inert state forces `listening`
with 12 copies of the sample, cancelling the idle-reversion timer.  If the
state actually changed, the wake effect's cleanup also clears the wake-hold
timer in the follow-up pass. -/
theorem sampleMic_loud_eq (m : Machine) (a : ℚ) (hni : ¬Inert4 m.state)
    (ha : a > mkRat 1 10) (hne : a ≠ m.micLevel) :
    sampleMic m a =
      (if m.state = .listening then
        { m with
          micLevel := a, state := .listening,
          levels := List.replicate 12 a,
          listenIdleT := none, idleSleepT := none }
      else
        { m with
          micLevel := a, state := .listening,
          levels := List.replicate 12 a,
          listenIdleT := none, idleSleepT := none, wakeHoldT := none }) := by
  have hpass := effectsPass_loud m { m with micLevel := a } (by exact hni)
    (by exact ha) (Or.inl (by simpa using fun he => hne he.symm))
  by_cases hst : m.state = .listening
  · rw [if_pos hst]
    unfold sampleMic
    rw [stabilize_eq_one _ _ (by rw [hpass]; simpa using hst.symm), hpass]
    simp
  · rw [if_neg hst]
    unfold sampleMic
    have hc1 : effectsPass m { m with micLevel := a } =
        { m with
          micLevel := a, state := .listening,
          levels := List.replicate 12 a,
          listenIdleT := none, idleSleepT := none,
          wakeHoldT := m.wakeHoldT } := by
      rw [hpass]; simp
    have hpass2 := effectsPass_loud { m with micLevel := a }
      ({ m with
          micLevel := a, state := .listening,
          levels := List.replicate 12 a,
          listenIdleT := none, idleSleepT := none,
          wakeHoldT := m.wakeHoldT })
      (by unfold Inert4; simp) (by exact ha) (Or.inr (by simpa using hst))
    rw [stabilize_eq_two _ _ (by rw [hc1, hpass2])]
    rw [hc1, hpass2]
    split_ifs <;> simp_all

/-- Firing a timer that is not pending is a no-op. -/
theorem fireWakeHold_none (m : Machine) (h : m.wakeHoldT = none) :
    fireWakeHold m = m := by
  unfold fireWakeHold
  rw [h]

/-- Firing the idle-reversion timer when it is not pending is a no-op. -/
theorem fireListenIdle_none (m : Machine) (h : m.listenIdleT = none) :
    fireListenIdle m = m := by
  unfold fireListenIdle
  rw [h]

/-- Firing the sleep timer when it is not pending is a no-op. -/
theorem fireIdleSleep_none (m : Machine) (h : m.idleSleepT = none) :
    fireIdleSleep m = m := by
  unfold fireIdleSleep
  rw [h]

/-- A pending timer that is not yet due cannot have fired. -/
theorem fireWakeHold_early (m : Machine) (t : ℕ) (h : m.wakeHoldT = some t)
    (hd : ¬t ≤ m.now) : fireWakeHold m = m := by
  unfold fireWakeHold
  rw [h]
  simp [hd]

/-- The idle-reversion timer before its deadline has not fired. -/
theorem fireListenIdle_early (m : Machine) (t : ℕ) (h : m.listenIdleT = some t)
    (hd : ¬t ≤ m.now) : fireListenIdle m = m := by
  unfold fireListenIdle
  rw [h]
  simp [hd]

/-- The wake-hold timeout firing at its deadline with a quiet mic: the
config becomes `idle` with `wakeStartTime: null`; the sleep effect then
re-evaluates. -/
theorem fireWakeHold_eq (m : Machine) (t : ℕ) (h : m.wakeHoldT = some t)
    (hd : t ≤ m.now) (ha : ¬m.micLevel > mkRat 1 10) :
    fireWakeHold m =
      { m with
        state := .idle, wakeStart := none, wakeHoldT := none,
        idleSleepT :=
          (if m.state ≠ .idle then
            (if m.micLevel < mkRat 3 100 then some (m.now + 10000) else none)
          else m.idleSleepT) } := by
  have hpass := effectsPass_idle m
    { m with state := .idle, wakeStart := none, wakeHoldT := none } rfl
    (by exact ha)
  unfold fireWakeHold
  rw [h]
  simp only [hd, if_true, if_pos]
  rw [stabilize_eq_one _ _ (by rw [hpass]), hpass]
  split_ifs <;> simp_all

/-- The idle-reversion timeout firing at its deadline with a quiet mic:
the config becomes `idle` with empty levels; the sleep effect then
re-evaluates. -/
theorem fireListenIdle_eq (m : Machine) (t : ℕ) (h : m.listenIdleT = some t)
    (hd : t ≤ m.now) (ha : ¬m.micLevel > mkRat 1 10) :
    fireListenIdle m =
      { m with
        state := .idle, levels := [], listenIdleT := none,
        wakeHoldT := (if m.state ≠ .idle then none else m.wakeHoldT),
        idleSleepT :=
          (if m.state ≠ .idle then
            (if m.micLevel < mkRat 3 100 then some (m.now + 10000) else none)
          else m.idleSleepT) } := by
  have hpass := effectsPass_idle m
    { m with state := .idle, levels := [], listenIdleT := none } rfl
    (by exact ha)
  unfold fireListenIdle
  rw [h]
  simp only [hd, if_true, if_pos]
  rw [stabilize_eq_one _ _ (by rw [hpass]), hpass]
  split_ifs <;> simp_all

/-- The sleep timeout firing at its deadline: the config becomes `sleep`
with empty levels; the other timers are cleared by the re-running effects
when the state actually changed. -/
theorem fireIdleSleep_eq (m : Machine) (t : ℕ) (h : m.idleSleepT = some t)
    (hd : t ≤ m.now) :
    fireIdleSleep m =
      { m with
        state := .sleep, levels := [], idleSleepT := none,
        wakeHoldT := (if m.state ≠ .sleep then none else m.wakeHoldT) } := by
  have hpass := effectsPass_inert4 m
    { m with state := .sleep, levels := [], idleSleepT := none }
    (Or.inr (Or.inr (Or.inr rfl)))
  unfold fireIdleSleep
  rw [h]
  simp only [hd, if_true, if_pos]
  rw [stabilize_eq_one _ _ (by rw [hpass]), hpass]
  split_ifs <;> simp_all

/-! ## Claims -/

/-- Machine invariants used to state what events cancel.  They hold of
every machine reachable from mount: a pending wake-hold timer exists only
in the `wake` state; the `wake` state always carries its timer; the sleep
timer is pending only in `idle`. -/
def MachineInv (m : Machine) : Prop :=
  (∀ t, m.wakeHoldT = some t → m.state = .wake) ∧
  (m.state = .wake → ∃ u, m.wakeStart = some u ∧ m.wakeHoldT = some (u + 500)) ∧
  (m.state ≠ .idle → m.idleSleepT = none)

/-- C1, counterexample to the claim as stated.  First: after a `listening`
episode arms the 3000 ms idle-reversion timer, a `thinking` backend event
leaves that timer pending (it is not cancelled).  Second: an `idle` backend
event arriving while the mic is loud does not leave the machine in `idle` —
the mic effect immediately re-enters `listening`. -/
theorem claim_C1_counterexample :
    (processEvent
        (runInputs (mountMachine 0) [.mic (mkRat 1 2), .mic (mkRat 1 100)])
        ⟨"thinking", none⟩).listenIdleT = some 3000 ∧
    (processEvent (runInputs (mountMachine 0) [.mic (mkRat 1 2)])
        ⟨"idle", none⟩).state = .listening ∧
    (processEvent (runInputs (mountMachine 0) [.mic (mkRat 1 2)])
        ⟨"idle", none⟩).state ≠ .idle := by
  refine ⟨by decide, by decide, by decide⟩

/-- C1 (amended): immediately after a backend event targeting `wake`,
`thinking`, `talk` or `sleep` the logical state equals the target, and for
`idle` or `listening` targets this holds provided the amplitude is at most
0.1; the wake-hold timer is cancelled for every non-`wake` target and
re-armed for `wake`; the sleep timer is cancelled for every target other
than `idle`; but a pending `listeningToIdle` timer is NOT cancelled — for
`wake`, `thinking`, `talk`, `sleep`, `idle` targets it survives
unchanged. -/
theorem claim_C1_amended (m : Machine) (e : BackendEvent) (hI : MachineInv m) :
    (e.event = "wake" → 0 < m.now →
      (processEvent m e).state = .wake ∧
      (processEvent m e).wakeHoldT = some (m.now + 500) ∧
      (processEvent m e).listenIdleT = m.listenIdleT ∧
      (processEvent m e).idleSleepT = none) ∧
    (e.event = "thinking" →
      (processEvent m e).state = .thinking ∧
      (processEvent m e).wakeHoldT = none ∧
      (processEvent m e).listenIdleT = m.listenIdleT ∧
      (processEvent m e).idleSleepT = none) ∧
    (e.event = "talk" →
      (processEvent m e).state = .talk ∧
      (processEvent m e).wakeHoldT = none ∧
      (processEvent m e).listenIdleT = m.listenIdleT ∧
      (processEvent m e).idleSleepT = none) ∧
    (e.event = "sleep" →
      (processEvent m e).state = .sleep ∧
      (processEvent m e).wakeHoldT = none ∧
      (processEvent m e).listenIdleT = m.listenIdleT ∧
      (processEvent m e).idleSleepT = none) ∧
    (e.event = "idle" → ¬m.micLevel > mkRat 1 10 →
      (processEvent m e).state = .idle ∧
      (processEvent m e).wakeHoldT = none ∧
      (processEvent m e).listenIdleT = m.listenIdleT) ∧
    (e.event = "listening" → ¬m.micLevel > mkRat 1 10 →
      (processEvent m e).state = .listening ∧
      (processEvent m e).wakeHoldT = none ∧
      (processEvent m e).idleSleepT = none) := by
  obtain ⟨hI1, hI2, hI3⟩ := hI
  obtain ⟨ev, lv⟩ := e
  have hwh : m.state ≠ .wake → m.wakeHoldT = none := by
    intro hs
    cases hwh : m.wakeHoldT with
    | none => rfl
    | some t => exact absurd (hI1 t hwh) hs
  have hclear : ∀ s : MiniMeState, s ≠ .wake →
      (if m.state ≠ s then none else m.wakeHoldT) = none := by
    intro s hsw
    split_ifs with h1
    · rfl
    · push_neg at h1
      exact hwh (by rw [h1]; exact hsw)
  have hsleepclear : ∀ s : MiniMeState, s ≠ .idle →
      (if m.state ≠ s then none else m.idleSleepT) = none := by
    intro s hsw
    split_ifs with h1
    · rfl
    · push_neg at h1
      exact hI3 (by rw [h1]; exact hsw)
  refine ⟨?_, ?_, ?_, ?_, ?_, ?_⟩ <;> intro he
  · intro hnow
    simp only at he
    subst he
    have hwT : (if m.state ≠ .wake ∨ m.wakeStart ≠ some m.now then
        (if m.now ≠ 0 then some (m.now + 500) else none)
      else m.wakeHoldT) = some (m.now + 500) := by
      split_ifs with h1 h2
      · rfl
      · exact absurd (Nat.pos_iff_ne_zero.mp hnow) h2
      · push_neg at h1
        obtain ⟨u, hu1, hu2⟩ := hI2 h1.1
        rw [h1.2] at hu1
        injection hu1 with hu
        rw [hu2, ← hu]
    have hsT : (if m.state ≠ .wake then none else m.idleSleepT) = none :=
      hsleepclear .wake (by decide)
    rw [processEvent_wake_eq m lv]
    exact ⟨rfl, hwT, rfl, hsT⟩
  · simp only at he
    subst he
    rw [processEvent_thinking_eq m lv]
    exact ⟨rfl, hclear .thinking (by decide), rfl,
      hsleepclear .thinking (by decide)⟩
  · simp only at he
    subst he
    rw [processEvent_talk_eq m lv]
    exact ⟨rfl, hclear .talk (by decide), rfl,
      hsleepclear .talk (by decide)⟩
  · simp only at he
    subst he
    rw [processEvent_sleep_eq m lv]
    exact ⟨rfl, hclear .sleep (by decide), rfl,
      hsleepclear .sleep (by decide)⟩
  · intro ha
    simp only at he
    subst he
    rw [processEvent_idle_eq m lv ha]
    exact ⟨rfl, hclear .idle (by decide), rfl⟩
  · intro ha
    simp only at he
    subst he
    rw [processEvent_listening_eq m lv ha]
    exact ⟨rfl, hclear .listening (by decide),
      hsleepclear .listening (by decide)⟩

/-- Witness for C1 (amended), at a machine in `thinking` with a pending
idle-reversion timer: a `thinking` event keeps the timer pending. -/
theorem claim_C1_witness :
    (processEvent
      (Machine.mk .thinking [] (mkRat 1 2) none 5 none (some 4000) none)
      ⟨"thinking", none⟩).state = .thinking ∧
    (processEvent
      (Machine.mk .thinking [] (mkRat 1 2) none 5 none (some 4000) none)
      ⟨"thinking", none⟩).listenIdleT = some 4000 := by
  have hinv : MachineInv
      (Machine.mk .thinking [] (mkRat 1 2) none 5 none (some 4000) none) := by
    refine ⟨?_, ?_, ?_⟩
    · intro t ht
      exact Option.noConfusion ht
    · intro h
      exact absurd h (by decide)
    · intro _
      rfl
  have h := claim_C1_amended
    (Machine.mk .thinking [] (mkRat 1 2) none 5 none (some 4000) none)
    ⟨"thinking", none⟩ hinv
  exact ⟨(h.2.1 rfl).1, (h.2.1 rfl).2.2.1⟩

/-- C2, counterexample to "frozen, not reset": entering `talk` with the
frame counter at 5 resets it to 0. -/
theorem claim_C2_counterexample :
    frameOnStateChange .talk 5 = 0 ∧ frameOnStateChange .talk 5 ≠ 5 := by
  exact ⟨rfl, by decide⟩

/-- C2 (amended): the frame counter increments once per 50 ms interval tick
(20 Hz) while the state is `idle`, `wake`, `thinking` or `sleep`, and
entering such a state keeps its value; but entering any other state
(`listening`, `talk`, `blink`) RESETS the counter to 0 (and no interval
runs there, so it does not increment). -/
theorem claim_C2_amended (s : MiniMeState) (f : ℕ) :
    ((s = .idle ∨ s = .wake ∨ s = .thinking ∨ s = .sleep) →
      frameOnStateChange s f = f ∧ frameOnTick s f = f + 1) ∧
    (¬(s = .idle ∨ s = .wake ∨ s = .thinking ∨ s = .sleep) →
      frameOnStateChange s f = 0 ∧ frameOnTick s f = f) ∧
    1000 / frameTickIntervalMs = 20 := by
  refine ⟨?_, ?_, rfl⟩ <;> intro h <;>
    simp [frameOnStateChange, frameOnTick, h]

/-- Witness for C2 (amended). -/
theorem claim_C2_witness :
    frameOnStateChange .idle 7 = 7 ∧ frameOnTick .idle 7 = 8 ∧
    frameOnStateChange .listening 7 = 0 := by
  have h1 := claim_C2_amended .idle 7
  have h2 := claim_C2_amended .listening 7
  exact ⟨(h1.1 (by decide)).1, (h1.1 (by decide)).2, (h2.2.1 (by decide)).1⟩

/-- C3: a `talk` event with no `levels` field yields logical state `talk`,
and the level vector handed to the renderer is twelve zeros (the state
machine stores `[]`, which `MiniMeFace` pads to `Array(12).fill(0)`). -/
theorem claim_C3 (m : Machine) (b : Bool) (frame : ℕ) (sinq sqrtq : ℚ → ℚ) :
    (processEvent m ⟨"talk", none⟩).state = .talk ∧
    emittedLevels sinq sqrtq (processEvent m ⟨"talk", none⟩) b frame =
      List.replicate 12 (0 : ℚ) := by
  rw [processEvent_talk_eq m none]
  refine ⟨rfl, ?_⟩
  unfold emittedLevels finalState finalLevels faceLevels
  simp

/-- C5: the displayed state is `blink` exactly when the blink flag is set
and the logical state is not `talk`; otherwise it is the logical state; in
particular `talk` is displayed during `talk` regardless of the blink
phase. -/
theorem claim_C5 (s : MiniMeState) (b : Bool) (hs : s ≠ .blink) :
    (finalState b s = .blink ↔ (b = true ∧ s ≠ .talk)) ∧
    (s = .talk → finalState b s = .talk) ∧
    (¬(b = true ∧ s ≠ .talk) → finalState b s = s) := by
  refine ⟨?_, ?_, ?_⟩ <;> unfold finalState <;> split_ifs with h <;> simp_all

/-- Witness for C5. -/
theorem claim_C5_witness :
    finalState true .talk = .talk ∧ finalState true .idle = .blink := by
  have h1 := claim_C5 .talk true (by decide)
  have h2 := claim_C5 .idle true (by decide)
  exact ⟨h1.2.1 rfl, h2.1.mpr ⟨rfl, by decide⟩⟩

/-- C6: a loud amplitude sample (above 0.1) outside `talk`, `wake`,
`thinking`, `sleep` immediately yields `listening` with twelve copies of
the sample; a sample arriving in one of those four states changes neither
the logical state nor the levels. -/
theorem claim_C6 (m : Machine) (a : ℚ) :
    (¬Inert4 m.state → a > mkRat 1 10 → a ≠ m.micLevel →
      (sampleMic m a).state = .listening ∧
      (sampleMic m a).levels = List.replicate 12 a) ∧
    (Inert4 m.state →
      (sampleMic m a).state = m.state ∧ (sampleMic m a).levels = m.levels) := by
  constructor
  · intro hni ha hne
    rw [sampleMic_loud_eq m a hni ha hne]
    split_ifs <;> exact ⟨rfl, rfl⟩
  · intro h
    by_cases hsame : a = m.micLevel
    · rw [sampleMic_same m a hsame]
      exact ⟨rfl, rfl⟩
    · rw [sampleMic_inert4_eq m a h]
      exact ⟨rfl, rfl⟩

/-- Witness for C6: a 0.5 sample in `idle` enters `listening`; a 0.5
sample during `talk` leaves state and levels alone. -/
theorem claim_C6_witness :
    (sampleMic (Machine.mk .idle [] 0 none 3 none none none)
      (mkRat 1 2)).state = .listening ∧
    (sampleMic (Machine.mk .talk [mkRat 1 2] 0 none 3 none none none)
      (mkRat 1 2)).levels = [mkRat 1 2] := by
  have h1 := claim_C6 (Machine.mk .idle [] 0 none 3 none none none) (mkRat 1 2)
  have h2 := claim_C6 (Machine.mk .talk [mkRat 1 2] 0 none 3 none none none)
    (mkRat 1 2)
  exact ⟨(h1.1 (by decide) (by decide) (by decide)).1,
    (h2.2 (by decide)).2⟩

/-- Entry access into a row-major brightness grid (`frames[row][col]`,
absent entries defaulting as JavaScript `undefined → 0`). -/
def gridGet (g : List (List ℚ)) (r c : ℕ) : ℚ := (g.getD r []).getD c 0

/-- The idle-wave entry formula, for cells inside the grid. -/
theorem generateIdleWave_get (sinq : ℚ → ℚ) (f rows cols r c : ℕ)
    (hr : r < rows) (hc : c < cols) :
    gridGet (generateIdleWave sinq f rows cols) r c =
      max 0 (sinq (((c : ℚ) + (f : ℚ) * (1/10)) * (1/2)) * (3/10) + 3/10) := by
  simp [gridGet, generateIdleWave, List.getD_eq_getElem?_getD,
    List.getElem?_map, List.getElem?_range, hr, hc]

/-- C8: every cell of the idle wave equals
`max(0, sin((col + frame*0.1)*0.5)*0.3 + 0.3)` — independent of the row —
and at frame 0, column 0 the value is exactly 0.3 for every row (IEEE
`Math.sin(0)` is exactly 0).  Determinism in `(state, frame)` holds
definitionally: the generator is a pure function of its arguments. -/
theorem claim_C8 (sinq : ℚ → ℚ) (f r r2 c : ℕ) (h0 : sinq 0 = 0)
    (hr : r < 7) (hr2 : r2 < 7) (hc : c < 12) :
    gridGet (generateIdleWave sinq f 7 12) r c =
      max 0 (sinq (((c : ℚ) + (f : ℚ) * (1/10)) * (1/2)) * (3/10) + 3/10) ∧
    gridGet (generateIdleWave sinq f 7 12) r c =
      gridGet (generateIdleWave sinq f 7 12) r2 c ∧
    gridGet (generateIdleWave sinq 0 7 12) r 0 = 3/10 := by
  refine ⟨generateIdleWave_get sinq f 7 12 r c hr hc, ?_, ?_⟩
  · rw [generateIdleWave_get sinq f 7 12 r c hr hc,
      generateIdleWave_get sinq f 7 12 r2 c hr2 hc]
  · rw [generateIdleWave_get sinq 0 7 12 r 0 hr (by norm_num)]
    norm_num [h0]

/-- Witness for C8, with the zero function standing in for `Math.sin`. -/
theorem claim_C8_witness :
    gridGet (generateIdleWave (fun _ => (0 : ℚ)) 0 7 12) 0 0 = 3/10 ∧
    gridGet (generateIdleWave (fun _ => (0 : ℚ)) 4 7 12) 2 5 =
      gridGet (generateIdleWave (fun _ => (0 : ℚ)) 4 7 12) 6 5 := by
  have h1 := claim_C8 (fun _ => (0 : ℚ)) 0 0 1 0 rfl (by decide) (by decide)
    (by decide)
  have h2 := claim_C8 (fun _ => (0 : ℚ)) 4 2 6 5 rfl (by decide) (by decide)
    (by decide)
  exact ⟨h1.2.2, h2.2.1⟩

/-- C9: in `vu` mode, a grid cell in column `col < cols` reads the level at
index `⌊(col/cols)·len⌋ = ⌊col·len/cols⌋`, which is always within bounds
(no out-of-bounds access); an empty levels array renders every cell off;
and an absent entry (index past the end, read as `undefined || 0 = 0`)
renders the cell off for every in-grid row.  Totality over arbitrary level
arrays holds by construction: `getCellColor` is a total function. -/
theorem claim_C9 (rows cols : ℕ) (levels : List ℚ) (row col : ℕ) :
    (0 < cols → col < cols → 0 < levels.length →
      (⌊((col : ℚ) / (cols : ℚ)) * (levels.length : ℚ)⌋).toNat <
        levels.length ∧
      ⌊((col : ℚ) / (cols : ℚ)) * (levels.length : ℚ)⌋ =
        ⌊((col : ℚ) * (levels.length : ℚ)) / (cols : ℚ)⌋) ∧
    (levels = [] → ∀ mode, getCellColor rows cols mode levels row col = .off) ∧
    (row < rows →
      levels.length ≤
        (⌊((col : ℚ) / (cols : ℚ)) * (levels.length : ℚ)⌋).toNat →
      getCellColor rows cols .vu levels row col = .off) := by
  refine ⟨?_, ?_, ?_⟩
  · intro hc0 hcc hl0
    constructor
    · have h1 : ((col : ℚ) / (cols : ℚ)) * (levels.length : ℚ) <
          (levels.length : ℚ) := by
        have hlt : (col : ℚ) / (cols : ℚ) < 1 := by
          rw [div_lt_one (by exact_mod_cast hc0)]
          exact_mod_cast hcc
        calc ((col : ℚ) / (cols : ℚ)) * (levels.length : ℚ)
            < 1 * (levels.length : ℚ) := by
              apply mul_lt_mul_of_pos_right hlt
              exact_mod_cast hl0
          _ = (levels.length : ℚ) := one_mul _
      have h2 : ⌊((col : ℚ) / (cols : ℚ)) * (levels.length : ℚ)⌋ <
          (levels.length : ℤ) := by
        rw [Int.floor_lt]
        exact_mod_cast h1
      omega
    · rw [div_mul_eq_mul_div]
  · intro hl mode
    subst hl
    unfold getCellColor
    simp
  · intro hrr hidx
    unfold getCellColor
    by_cases hl0 : 0 < levels.length
    · rw [if_pos ⟨rfl, hl0⟩]
      show (if ((rows : ℚ) - 1 - (row : ℚ)) / (rows : ℚ) <
          levels.getD
            (⌊((col : ℚ) / (cols : ℚ)) * (levels.length : ℚ)⌋).toNat 0 then
          CellColor.on else CellColor.off) = CellColor.off
      rw [List.getD_eq_default _ _ hidx]
      have hth : (0 : ℚ) ≤ ((rows : ℚ) - 1 - (row : ℚ)) / (rows : ℚ) := by
        apply div_nonneg
        · have : (row : ℚ) + 1 ≤ (rows : ℚ) := by exact_mod_cast hrr
          linarith
        · positivity
      rw [if_neg (not_lt.mpr hth)]
    · rw [if_neg (by simp [hl0])]

/-- Witness for C9: a single-entry levels array on a 7×12 grid — column 11
reads index 0 (in bounds), the empty array renders off, and column 12
(outside the grid) reads past the end and renders off. -/
theorem claim_C9_witness :
    (⌊((11 : ℚ) / (12 : ℚ)) * (([mkRat 1 2].length : ℕ) : ℚ)⌋).toNat <
      [mkRat 1 2].length ∧
    getCellColor 7 12 .vu [] 0 0 = .off ∧
    getCellColor 7 12 .vu [(1 : ℚ)] 0 12 = .off := by
  have h1 := claim_C9 7 12 [mkRat 1 2] 0 11
  have h2 := claim_C9 7 12 [] 0 0
  have h3 := claim_C9 7 12 [(1 : ℚ)] 0 12
  refine ⟨(h1.1 (by norm_num) (by norm_num) (by norm_num)).1,
    h2.2.1 rfl .vu, h3.2.2 (by norm_num) ?_⟩
  norm_num

/-- A quiet, event-free signal: no backend event, and every mic sample in
the band `[0.03, 0.1]` (loud enough not to arm the sleep timer, quiet
enough not to trigger `listening`). -/
def quietBandB : SMInput → Bool
  | .ev _ => false
  | .mic a => decide (mkRat 3 100 ≤ a) && decide (a ≤ mkRat 1 10)
  | _ => true

/-- The machine immediately after a `wake` backend event processed at time
`t0 > 0` from a state with no pending timers (see `wakeStartMachine_spec`):
`wake`, empty levels, wake-hold timer armed for `t0 + 500`. -/
def wakeStartMachine (t0 : ℕ) (a : ℚ) : Machine :=
  { state := .wake, levels := [], micLevel := a, wakeStart := some t0,
    now := t0, wakeHoldT := some (t0 + 500), listenIdleT := none,
    idleSleepT := none }

/-- `wakeStartMachine` is what a `wake` event produces from an `idle`
machine with no pending timers. -/
theorem wakeStartMachine_spec (t0 : ℕ) (a : ℚ) (lv : List ℚ)
    (w : Option ℕ) (isl : Option ℕ) (ht : 0 < t0) :
    processEvent (Machine.mk .idle lv a w t0 none none isl) ⟨"wake", none⟩ =
      wakeStartMachine t0 a := by
  rw [processEvent_wake_eq]
  unfold wakeStartMachine
  simp [Nat.pos_iff_ne_zero.mp ht]

/-- Invariant for the wake-hold scenario: mic in the band, no other timer
pending, and either still `wake` with the timer armed for `t0 + 500` and
the clock not past it, or `idle` with the timer consumed. -/
def WakeInv (t0 : ℕ) (m : Machine) : Prop :=
  mkRat 3 100 ≤ m.micLevel ∧ m.micLevel ≤ mkRat 1 10 ∧
  m.listenIdleT = none ∧ m.idleSleepT = none ∧
  ((m.state = .wake ∧ m.wakeHoldT = some (t0 + 500) ∧ m.now ≤ t0 + 500) ∨
   (m.state = .idle ∧ m.wakeHoldT = none ∧ t0 + 500 ≤ m.now))

/-- One quiet legal step preserves the wake-hold invariant. -/
theorem wakeInv_step (t0 : ℕ) (m : Machine) (i : SMInput)
    (hq : quietBandB i = true) (hok : inputOKb m i = true)
    (hI : WakeInv t0 m) : WakeInv t0 (applyInput m i) := by
  obtain ⟨h1, h2, h3, h4, h5⟩ := hI
  cases i with
  | ev e => simp [quietBandB] at hq
  | mic a =>
    simp only [quietBandB, Bool.and_eq_true, decide_eq_true_eq] at hq
    obtain ⟨hqa, hqb⟩ := hq
    have hna : ¬a > mkRat 1 10 := not_lt.mpr hqb
    show WakeInv t0 (sampleMic m a)
    by_cases hsame : a = m.micLevel
    · rw [sampleMic_same m a hsame]
      exact ⟨h1, h2, h3, h4, h5⟩
    rcases h5 with ⟨hs, hw, hn⟩ | ⟨hs, hw, hn⟩
    · rw [sampleMic_inert4_eq m a (Or.inr (Or.inl hs))]
      refine ⟨hqa, hqb, h3, ?_, Or.inl ⟨hs, hw, hn⟩⟩
      split_ifs <;> simp [h4]
    · rw [sampleMic_idle_eq m a hs hna]
      refine ⟨hqa, hqb, h3, ?_, Or.inr ⟨hs, hw, hn⟩⟩
      have : ¬a < mkRat 3 100 := not_lt.mpr hqa
      split_ifs <;> simp [h4]
  | tick d =>
    show WakeInv t0 { m with now := m.now + d }
    simp only [inputOKb, Bool.and_eq_true] at hok
    rcases h5 with ⟨hs, hw, hn⟩ | ⟨hs, hw, hn⟩
    · have hb : m.now + d ≤ t0 + 500 := by
        have := hok.1.1
        rw [hw] at this
        simpa [leB] using this
      exact ⟨h1, h2, h3, h4, Or.inl ⟨hs, hw, hb⟩⟩
    · exact ⟨h1, h2, h3, h4,
        Or.inr ⟨hs, hw, le_trans hn (Nat.le_add_right _ _)⟩⟩
  | fireWake =>
    show WakeInv t0 (fireWakeHold m)
    rcases h5 with ⟨hs, hw, hn⟩ | ⟨hs, hw, hn⟩
    · have hdue : t0 + 500 ≤ m.now := by
        simp only [inputOKb] at hok
        rw [hw] at hok
        simpa [dueB] using hok
      have hna : ¬m.micLevel > mkRat 1 10 := not_lt.mpr h2
      rw [fireWakeHold_eq m (t0 + 500) hw hdue hna]
      refine ⟨h1, h2, h3, ?_, Or.inr ⟨rfl, rfl, hdue⟩⟩
      have hq3 : ¬m.micLevel < mkRat 3 100 := not_lt.mpr h1
      split_ifs <;> simp [h4]
    · simp only [inputOKb] at hok
      rw [hw] at hok
      simp [dueB] at hok
  | fireListen =>
    simp only [inputOKb] at hok
    rw [h3] at hok
    simp [dueB] at hok
  | fireSleep =>
    simp only [inputOKb] at hok
    rw [h4] at hok
    simp [dueB] at hok

/-- The wake-hold invariant is preserved along any quiet legal trace. -/
theorem wakeInv_run (t0 : ℕ) (l : List SMInput) :
    ∀ m : Machine, (∀ i ∈ l, quietBandB i = true) → Legal m l →
    WakeInv t0 m → WakeInv t0 (runInputs m l) := by
  induction l with
  | nil => intro m _ _ hI; exact hI
  | cons i l ih =>
    intro m hq hLegal hI
    cases hLegal with
    | cons _ _ _ hok htail =>
      exact ih (applyInput m i)
        (fun j hj => hq j (List.mem_cons_of_mem i hj)) htail
        (wakeInv_step t0 m i (hq i (List.mem_cons_self i l)) hok hI)

/-- C7: from the machine a `wake` event leaves at time `t0`, with no
further backend events and every mic sample in the band `[0.03, 0.1]`
(blink open), the displayed state is `wake` whenever the clock is at most
`t0 + 499` and `idle` whenever it is at least `t0 + 501` (the legal-trace
rules force the 500 ms timer to fire before the clock can pass it); and
firing the wake-hold timer is a no-op unless the logical state is still
`wake` (any superseding transition cancels the timer, so it is pending
only in `wake`). -/
theorem claim_C7 :
    (∀ (t0 : ℕ) (a : ℚ) (l : List SMInput),
      mkRat 3 100 ≤ a → a ≤ mkRat 1 10 →
      (∀ i ∈ l, quietBandB i = true) →
      Legal (wakeStartMachine t0 a) l →
      ((runInputs (wakeStartMachine t0 a) l).now ≤ t0 + 499 →
        finalState false (runInputs (wakeStartMachine t0 a) l).state = .wake) ∧
      (t0 + 501 ≤ (runInputs (wakeStartMachine t0 a) l).now →
        finalState false (runInputs (wakeStartMachine t0 a) l).state = .idle)) ∧
    (∀ m : Machine, (∀ t, m.wakeHoldT = some t → m.state = .wake) →
      m.state ≠ .wake → fireWakeHold m = m) := by
  constructor
  · intro t0 a l ha1 ha2 hq hLegal
    have hI0 : WakeInv t0 (wakeStartMachine t0 a) :=
      ⟨ha1, ha2, rfl, rfl, Or.inl ⟨rfl, rfl, Nat.le_add_right _ _⟩⟩
    have hI := wakeInv_run t0 l (wakeStartMachine t0 a) hq hLegal hI0
    obtain ⟨_, _, _, _, h5⟩ := hI
    constructor
    · intro hnow
      rcases h5 with ⟨hs, _, _⟩ | ⟨_, _, hn⟩
      · rw [hs]; rfl
      · omega
    · intro hnow
      rcases h5 with ⟨_, _, hn⟩ | ⟨hs, _, _⟩
      · omega
      · rw [hs]; rfl
  · intro m hp hs
    cases hw : m.wakeHoldT with
    | none => exact fireWakeHold_none m hw
    | some t => exact absurd (hp t hw) hs

/-- Witness for C7: at 499 ms after the wake event the display is still
`wake`; firing the (absent) timer outside `wake` is a no-op. -/
theorem claim_C7_witness :
    finalState false
      (runInputs (wakeStartMachine 1 (mkRat 5 100)) [.tick 499]).state =
      .wake ∧
    fireWakeHold (Machine.mk .thinking [] 0 none 7 none none none) =
      Machine.mk .thinking [] 0 none 7 none none none := by
  have h := claim_C7
  refine ⟨?_, ?_⟩
  · refine (h.1 1 (mkRat 5 100) [.tick 499] (by decide) (by decide)
      (by decide) ?_).1 (by decide)
    exact Legal.cons _ _ _ (by decide) (Legal.nil _)
  · refine h.2 (Machine.mk .thinking [] 0 none 7 none none none) ?_ (by decide)
    intro t ht
    exact Option.noConfusion ht

/-- The machine for the listening idle-reversion scenario: `listening` with
the 3000 ms timer pending for deadline `d` and the mic already risen into
the band `[0.03, 0.1]` (which neither cancels nor refreshes the timer). -/
def listenBandMachine (t1 d : ℕ) (a : ℚ) (lv : List ℚ) : Machine :=
  { state := .listening, levels := lv, micLevel := a, wakeStart := none,
    now := t1, wakeHoldT := none, listenIdleT := some d, idleSleepT := none }

/-- Invariant for the idle-reversion scenario: mic in the band, no other
timer pending, and either still `listening` with the timer pending for `d`
and the clock not past it, or `idle` with the timer consumed. -/
def ListenInv (d : ℕ) (m : Machine) : Prop :=
  mkRat 3 100 ≤ m.micLevel ∧ m.micLevel ≤ mkRat 1 10 ∧
  m.wakeHoldT = none ∧ m.idleSleepT = none ∧
  ((m.state = .listening ∧ m.listenIdleT = some d ∧ m.now ≤ d) ∨
   (m.state = .idle ∧ m.listenIdleT = none ∧ d ≤ m.now))

/-- One quiet legal step preserves the idle-reversion invariant. -/
theorem listenInv_step (d : ℕ) (m : Machine) (i : SMInput)
    (hq : quietBandB i = true) (hok : inputOKb m i = true)
    (hI : ListenInv d m) : ListenInv d (applyInput m i) := by
  obtain ⟨h1, h2, h3, h4, h5⟩ := hI
  cases i with
  | ev e => simp [quietBandB] at hq
  | mic a =>
    simp only [quietBandB, Bool.and_eq_true, decide_eq_true_eq] at hq
    obtain ⟨hqa, hqb⟩ := hq
    have hna : ¬a > mkRat 1 10 := not_lt.mpr hqb
    have hq3 : ¬a < mkRat 3 100 := not_lt.mpr hqa
    show ListenInv d (sampleMic m a)
    by_cases hsame : a = m.micLevel
    · rw [sampleMic_same m a hsame]
      exact ⟨h1, h2, h3, h4, h5⟩
    rcases h5 with ⟨hs, hw, hn⟩ | ⟨hs, hw, hn⟩
    · rw [sampleMic_listening_eq m a hs hna]
      refine ⟨hqa, hqb, h3, ?_, Or.inl ⟨hs, ?_, hn⟩⟩
      · split_ifs <;> simp [h4]
      · split_ifs <;> simp [hw]
    · rw [sampleMic_idle_eq m a hs hna]
      refine ⟨hqa, hqb, h3, ?_, Or.inr ⟨hs, hw, hn⟩⟩
      split_ifs <;> simp [h4]
  | tick dd =>
    show ListenInv d { m with now := m.now + dd }
    simp only [inputOKb, Bool.and_eq_true] at hok
    rcases h5 with ⟨hs, hw, hn⟩ | ⟨hs, hw, hn⟩
    · have hb : m.now + dd ≤ d := by
        have := hok.1.2
        rw [hw] at this
        simpa [leB] using this
      exact ⟨h1, h2, h3, h4, Or.inl ⟨hs, hw, hb⟩⟩
    · exact ⟨h1, h2, h3, h4,
        Or.inr ⟨hs, hw, le_trans hn (Nat.le_add_right _ _)⟩⟩
  | fireListen =>
    show ListenInv d (fireListenIdle m)
    rcases h5 with ⟨hs, hw, hn⟩ | ⟨hs, hw, hn⟩
    · have hdue : d ≤ m.now := by
        simp only [inputOKb] at hok
        rw [hw] at hok
        simpa [dueB] using hok
      have hna : ¬m.micLevel > mkRat 1 10 := not_lt.mpr h2
      rw [fireListenIdle_eq m d hw hdue hna]
      have hq3 : ¬m.micLevel < mkRat 3 100 := not_lt.mpr h1
      refine ⟨h1, h2, ?_, ?_, Or.inr ⟨rfl, rfl, hdue⟩⟩
      · split_ifs <;> simp [h3]
      · split_ifs <;> simp [h4]
    · simp only [inputOKb] at hok
      rw [hw] at hok
      simp [dueB] at hok
  | fireWake =>
    simp only [inputOKb] at hok
    rw [h3] at hok
    simp [dueB] at hok
  | fireSleep =>
    simp only [inputOKb] at hok
    rw [h4] at hok
    simp [dueB] at hok

/-- The idle-reversion invariant is preserved along any quiet legal
trace. -/
theorem listenInv_run (d : ℕ) (l : List SMInput) :
    ∀ m : Machine, (∀ i ∈ l, quietBandB i = true) → Legal m l →
    ListenInv d m → ListenInv d (runInputs m l) := by
  induction l with
  | nil => intro m _ _ hI; exact hI
  | cons i l ih =>
    intro m hq hLegal hI
    cases hLegal with
    | cons _ _ _ hok htail =>
      exact ih (applyInput m i)
        (fun j hj => hq j (List.mem_cons_of_mem i hj)) htail
        (listenInv_step d m i (hq i (List.mem_cons_self i l)) hok hI)

/-- C10: a pending idle-reversion timer armed for deadline `d` while
`listening` survives every amplitude sample in the band `[0.03, 0.1]`
unchanged and every legal tick until `d` (the timer then fires, after
which the state is `idle`); it is cancelled by a sample strictly above
0.1; and a sample strictly below 0.03 re-arms it for 3000 ms after that
sample (so it fires 3000 ms after it was last started). -/
theorem claim_C10 :
    (∀ (t1 d : ℕ) (a : ℚ) (lv : List ℚ) (l : List SMInput),
      mkRat 3 100 ≤ a → a ≤ mkRat 1 10 → t1 ≤ d →
      (∀ i ∈ l, quietBandB i = true) →
      Legal (listenBandMachine t1 d a lv) l →
      ((runInputs (listenBandMachine t1 d a lv) l).now < d →
        (runInputs (listenBandMachine t1 d a lv) l).state = .listening ∧
        (runInputs (listenBandMachine t1 d a lv) l).listenIdleT = some d) ∧
      (d < (runInputs (listenBandMachine t1 d a lv) l).now →
        (runInputs (listenBandMachine t1 d a lv) l).state = .idle)) ∧
    (∀ (m : Machine) (a : ℚ), m.state = .listening → a > mkRat 1 10 →
      a ≠ m.micLevel → (sampleMic m a).listenIdleT = none) ∧
    (∀ (m : Machine) (a : ℚ), m.state = .listening → a < mkRat 3 100 →
      a ≠ m.micLevel →
      (sampleMic m a).listenIdleT = some (m.now + 3000)) := by
  refine ⟨?_, ?_, ?_⟩
  · intro t1 d a lv l ha1 ha2 htd hq hLegal
    have hI0 : ListenInv d (listenBandMachine t1 d a lv) :=
      ⟨ha1, ha2, rfl, rfl, Or.inl ⟨rfl, rfl, htd⟩⟩
    have hI := listenInv_run d l (listenBandMachine t1 d a lv) hq hLegal hI0
    obtain ⟨_, _, _, _, h5⟩ := hI
    constructor
    · intro hnow
      rcases h5 with ⟨hs, hw, _⟩ | ⟨_, _, hn⟩
      · exact ⟨hs, hw⟩
      · omega
    · intro hnow
      rcases h5 with ⟨_, _, hn⟩ | ⟨hs, _, _⟩
      · omega
      · exact hs
  · intro m a hs ha hne
    have hni : ¬Inert4 m.state := by unfold Inert4; simp [hs]
    rw [sampleMic_loud_eq m a hni ha hne]
    rw [if_pos hs]
  · intro m a hs ha hne
    have hna : ¬a > mkRat 1 10 :=
      not_lt.mpr (le_of_lt (lt_trans ha mkRat_thresholds))
    rw [sampleMic_listening_eq m a hs hna]
    show (if m.micLevel ≠ a then
        (if a < mkRat 3 100 then some (m.now + 3000) else m.listenIdleT)
      else m.listenIdleT) = some (m.now + 3000)
    rw [if_pos (fun hc => hne hc.symm), if_pos ha]

/-- Witness for C10: from `listening` with the timer set for 3000, band
samples and ticks keep it pending until it fires at 3000, after which the
state is `idle`; a loud sample cancels it; a silent sample re-arms it. -/
theorem claim_C10_witness :
    (runInputs (listenBandMachine 0 3000 (mkRat 5 100) [mkRat 5 100])
      [.tick 3000, .fireListen, .tick 1]).state = .idle ∧
    (sampleMic (listenBandMachine 0 3000 (mkRat 5 100) [mkRat 5 100])
      (mkRat 1 2)).listenIdleT = none ∧
    (sampleMic (listenBandMachine 0 3000 (mkRat 5 100) [mkRat 5 100])
      (mkRat 1 100)).listenIdleT = some 3000 := by
  have h := claim_C10
  refine ⟨?_, ?_, ?_⟩
  · refine (h.1 0 3000 (mkRat 5 100) [mkRat 5 100]
      [.tick 3000, .fireListen, .tick 1] (by decide) (by decide) (by decide)
      (by decide) ?_).2 (by decide)
    exact Legal.cons _ _ _ (by decide)
      (Legal.cons _ _ _ (by decide)
        (Legal.cons _ _ _ (by decide) (Legal.nil _)))
  · exact h.2.1 (listenBandMachine 0 3000 (mkRat 5 100) [mkRat 5 100])
      (mkRat 1 2) rfl (by decide) (by decide)
  · exact h.2.2 (listenBandMachine 0 3000 (mkRat 5 100) [mkRat 5 100])
      (mkRat 1 100) rfl (by decide) (by decide)

/-! ## Bounds for the animation synthesizer -/

/-- Idle-wave cells lie in `[0, 1]` (in fact `[0, 0.6]`). -/
theorem generateIdleWave_bounds (sinq : ℚ → ℚ)
    (hs : ∀ x, -1 ≤ sinq x ∧ sinq x ≤ 1) (f rows cols : ℕ) :
    ∀ r ∈ generateIdleWave sinq f rows cols, ∀ x ∈ r, 0 ≤ x ∧ x ≤ 1 := by
  intro r hr x hx
  unfold generateIdleWave at hr
  simp only [List.mem_map, List.mem_range] at hr
  obtain ⟨row, _, rfl⟩ := hr
  simp only [List.mem_map, List.mem_range] at hx
  obtain ⟨col, _, rfl⟩ := hx
  obtain ⟨hs1, hs2⟩ := hs (((col : ℚ) + (f : ℚ) * (1/10)) * (1/2))
  refine ⟨le_max_left 0 _, max_le (by norm_num) (by linarith)⟩

/-- Wake-pulse cells lie in `[0, 1]` (in fact `[0, 0.9]`). -/
theorem generateWakePulse_bounds (sinq sqrtq : ℚ → ℚ)
    (hs : ∀ x, -1 ≤ sinq x ∧ sinq x ≤ 1) (hq : ∀ x, 0 ≤ sqrtq x)
    (f rows cols : ℕ) :
    ∀ r ∈ generateWakePulse sinq sqrtq f rows cols, ∀ x ∈ r, 0 ≤ x ∧ x ≤ 1 := by
  intro r hr x hx
  unfold generateWakePulse at hr
  simp only [List.mem_map, List.mem_range] at hr
  obtain ⟨row, _, rfl⟩ := hr
  simp only [List.mem_map, List.mem_range] at hx
  obtain ⟨col, _, rfl⟩ := hx
  obtain ⟨hs1, hs2⟩ := hs ((f : ℚ) * (3/10))
  have hpulse0 : (0 : ℚ) ≤ sinq ((f : ℚ) * (3/10)) * (1/2) + 1/2 := by linarith
  have hpulse1 : sinq ((f : ℚ) * (3/10)) * (1/2) + 1/2 ≤ 1 := by linarith
  have hdist : (0 : ℚ) ≤
      sqrtq (((row : ℚ) - ((rows / 2 : ℕ) : ℚ))^2 +
        ((col : ℚ) - ((cols / 2 : ℕ) : ℚ))^2) := hq _
  have hmax : (0 : ℚ) ≤ sqrtq ((rows : ℚ)^2 + (cols : ℚ)^2) := hq _
  have hratio : (0 : ℚ) ≤
      sqrtq (((row : ℚ) - ((rows / 2 : ℕ) : ℚ))^2 +
        ((col : ℚ) - ((cols / 2 : ℕ) : ℚ))^2) /
      sqrtq ((rows : ℚ)^2 + (cols : ℚ)^2) := div_nonneg hdist hmax
  have hm0 : (0 : ℚ) ≤ max 0 (1 -
      sqrtq (((row : ℚ) - ((rows / 2 : ℕ) : ℚ))^2 +
        ((col : ℚ) - ((cols / 2 : ℕ) : ℚ))^2) /
      sqrtq ((rows : ℚ)^2 + (cols : ℚ)^2) * 2) := le_max_left 0 _
  have hm1 : max 0 (1 -
      sqrtq (((row : ℚ) - ((rows / 2 : ℕ) : ℚ))^2 +
        ((col : ℚ) - ((cols / 2 : ℕ) : ℚ))^2) /
      sqrtq ((rows : ℚ)^2 + (cols : ℚ)^2) * 2) ≤ 1 :=
    max_le (by norm_num) (by linarith)
  constructor
  · have := mul_nonneg (mul_nonneg hm0 hpulse0) (by norm_num : (0:ℚ) ≤ 9/10)
    simpa using this
  · have hab : max 0 (1 -
        sqrtq (((row : ℚ) - ((rows / 2 : ℕ) : ℚ))^2 +
          ((col : ℚ) - ((cols / 2 : ℕ) : ℚ))^2) /
        sqrtq ((rows : ℚ)^2 + (cols : ℚ)^2) * 2) *
        (sinq ((f : ℚ) * (3/10)) * (1/2) + 1/2) ≤ 1 :=
      mul_le_one₀ hm1 hpulse0 hpulse1
    nlinarith

/-- Thinking-pulse cells lie in `[0, 1]` (in fact `[0.03, 0.9]`). -/
theorem generateThinkingPulse_bounds (sinq : ℚ → ℚ)
    (hs : ∀ x, -1 ≤ sinq x ∧ sinq x ≤ 1) (f rows cols : ℕ) :
    ∀ r ∈ generateThinkingPulse sinq f rows cols, ∀ x ∈ r, 0 ≤ x ∧ x ≤ 1 := by
  intro r hr x hx
  unfold generateThinkingPulse at hr
  simp only [List.mem_map, List.mem_range] at hr
  obtain ⟨row, _, rfl⟩ := hr
  simp only [List.mem_map, List.mem_range] at hx
  obtain ⟨col, _, rfl⟩ := hx
  obtain ⟨hs1, hs2⟩ := hs ((f : ℚ) * (1/5))
  split_ifs <;> constructor <;> linarith

/-- Sleep-pattern cells lie in `[0, 1]` (in fact `[0, 0.2]`). -/
theorem generateSleepPattern_bounds (sinq : ℚ → ℚ)
    (hs : ∀ x, -1 ≤ sinq x ∧ sinq x ≤ 1) (f rows cols : ℕ) :
    ∀ r ∈ generateSleepPattern sinq f rows cols, ∀ x ∈ r, 0 ≤ x ∧ x ≤ 1 := by
  intro r hr x hx
  unfold generateSleepPattern at hr
  simp only [List.mem_map, List.mem_range] at hr
  obtain ⟨row, _, rfl⟩ := hr
  simp only [List.mem_map, List.mem_range] at hx
  obtain ⟨col, _, rfl⟩ := hx
  obtain ⟨hs1, hs2⟩ := hs ((f : ℚ) * (1/20))
  constructor <;> linarith

/-- Blink-pattern cells lie in `[0, 1]` (they are `0.9` or `0.1`). -/
theorem generateBlinkPattern_bounds (rows cols : ℕ) :
    ∀ r ∈ generateBlinkPattern rows cols, ∀ x ∈ r, 0 ≤ x ∧ x ≤ 1 := by
  intro r hr x hx
  unfold generateBlinkPattern at hr
  simp only [List.mem_map, List.mem_range] at hr
  obtain ⟨row, _, rfl⟩ := hr
  simp only [List.mem_map, List.mem_range] at hx
  obtain ⟨col, _, rfl⟩ := hx
  split_ifs <;> norm_num

/-- A column average of a field with entries in `[0, 1]` has entries in
`[0, 1]` and one value per column. -/
theorem columnAverage_spec (frames : List (List ℚ)) (cols : ℕ)
    (h : ∀ r ∈ frames, ∀ x ∈ r, 0 ≤ x ∧ x ≤ 1) :
    (columnAverage frames cols).length = cols ∧
    ∀ x ∈ columnAverage frames cols, 0 ≤ x ∧ x ≤ 1 := by
  constructor
  · unfold columnAverage
    simp
  intro x hx
  unfold columnAverage at hx
  simp only [List.mem_map, List.mem_range] at hx
  obtain ⟨col, _, rfl⟩ := hx
  have hv : ∀ v ∈ frames.map (fun (row : List ℚ) => row.getD col 0),
      0 ≤ v ∧ v ≤ 1 := by
    intro v hv
    simp only [List.mem_map] at hv
    obtain ⟨r, hr, rfl⟩ := hv
    by_cases hc : col < r.length
    · have hmem : r.getD col 0 ∈ r := by
        rw [List.getD_eq_getElem r 0 hc]
        exact List.getElem_mem hc
      exact h r hr _ hmem
    · rw [List.getD_eq_default _ _ (le_of_not_lt hc)]
      norm_num
  have h0 : (0 : ℚ) ≤ (frames.map (fun (row : List ℚ) => row.getD col 0)).sum :=
    List.sum_nonneg (fun v hv' => (hv v hv').1)
  have h1 : (frames.map (fun (row : List ℚ) => row.getD col 0)).sum ≤
      ((frames.map (fun (row : List ℚ) => row.getD col 0)).length : ℚ) := by
    calc (frames.map (fun (row : List ℚ) => row.getD col 0)).sum
        ≤ (frames.map (fun (row : List ℚ) => row.getD col 0)).length • (1 : ℚ) :=
          List.sum_le_card_nsmul _ 1 (fun v hv' => (hv v hv').2)
      _ = _ := by simp
  constructor
  · exact div_nonneg h0 (by positivity)
  · by_cases hlen : (frames.map (fun (row : List ℚ) => row.getD col 0)).length = 0
    · rw [hlen]
      norm_num
    · rw [div_le_one (by positivity)]
      exact h1

/-- A well-formed stored level vector: empty (a state with no externally
supplied levels) or exactly 12 entries in `[0, 1]`. -/
def LevelsOK (lv : List ℚ) : Prop :=
  lv = [] ∨ (lv.length = 12 ∧ ∀ x ∈ lv, 0 ≤ x ∧ x ≤ 1)

/-- `MiniMeFace`'s output always has length 12 with entries in `[0, 1]`,
for any display state, provided the supplied levels are well formed. -/
theorem faceLevels_spec (sinq sqrtq : ℚ → ℚ)
    (hs : ∀ x, -1 ≤ sinq x ∧ sinq x ≤ 1) (hq : ∀ x, 0 ≤ sqrtq x)
    (s : MiniMeState) (levels : List ℚ) (frame : ℕ) (hlev : LevelsOK levels) :
    (faceLevels sinq sqrtq s levels frame).length = 12 ∧
    ∀ x ∈ faceLevels sinq sqrtq s levels frame, 0 ≤ x ∧ x ≤ 1 := by
  have hrep : (List.replicate 12 (0 : ℚ)).length = 12 ∧
      ∀ x ∈ List.replicate 12 (0 : ℚ), 0 ≤ x ∧ x ≤ 1 := by
    refine ⟨by simp, ?_⟩
    intro x hx
    rw [List.eq_of_mem_replicate hx]
    norm_num
  have hpass : (if 0 < levels.length then levels
      else List.replicate 12 (0 : ℚ)).length = 12 ∧
      ∀ x ∈ (if 0 < levels.length then levels
        else List.replicate 12 (0 : ℚ)), 0 ≤ x ∧ x ≤ 1 := by
    rcases hlev with h | ⟨hlen, hbd⟩
    · subst h
      simp only [List.length_nil, lt_irrefl, if_neg (lt_irrefl 0)]
      exact hrep
    · rw [if_pos (by omega)]
      exact ⟨hlen, hbd⟩
  cases s with
  | talk => exact hpass
  | listening => exact hpass
  | blink =>
    exact columnAverage_spec _ _ (generateBlinkPattern_bounds 7 12)
  | idle =>
    exact columnAverage_spec _ _ (generateIdleWave_bounds sinq hs frame 7 12)
  | wake =>
    exact columnAverage_spec _ _
      (generateWakePulse_bounds sinq sqrtq hs hq frame 7 12)
  | thinking =>
    exact columnAverage_spec _ _
      (generateThinkingPulse_bounds sinq hs frame 7 12)
  | sleep =>
    exact columnAverage_spec _ _
      (generateSleepPattern_bounds sinq hs frame 7 12)

/-- An effect pass leaves the stored levels alone or replaces them with 12
copies of the render's mic level. -/
theorem effectsPass_levels (prev cur : Machine) :
    (effectsPass prev cur).levels = cur.levels ∨
    (effectsPass prev cur).levels = List.replicate 12 cur.micLevel := by
  unfold effectsPass wakeEffectBody micEffectBody sleepEffectBody
  split_ifs <;> simp_all

/-- `stabilize` leaves the stored levels alone or replaces them with 12
copies of the render's mic level. -/
theorem stabilize_levels (prev cur : Machine) :
    (stabilize prev cur).levels = cur.levels ∨
    (stabilize prev cur).levels = List.replicate 12 cur.micLevel := by
  have e1 := effectsPass_levels prev cur
  have c1 := (effectsPass_const prev cur).1
  have e2 := effectsPass_levels cur (effectsPass prev cur)
  have c2 := (effectsPass_const cur (effectsPass prev cur)).1
  have e3 := effectsPass_levels (effectsPass prev cur)
    (effectsPass cur (effectsPass prev cur))
  have hst : stabilize prev cur = effectsPass (effectsPass prev cur)
    (effectsPass cur (effectsPass prev cur)) := rfl
  rw [c1] at e2 c2
  rw [c2] at e3
  rw [hst]
  rcases e3 with e3 | e3
  · rcases e2 with e2 | e2
    · rcases e1 with e1 | e1
      · left; rw [e3, e2, e1]
      · right; rw [e3, e2, e1]
    · right; rw [e3, e2]
  · right; exact e3

/-- `stabilize` keeps the render's mic level. -/
theorem stabilize_micLevel (prev cur : Machine) :
    (stabilize prev cur).micLevel = cur.micLevel := by
  have c1 := (effectsPass_const prev cur).1
  have c2 := (effectsPass_const cur (effectsPass prev cur)).1
  have c3 := (effectsPass_const (effectsPass prev cur)
    (effectsPass cur (effectsPass prev cur))).1
  show (effectsPass (effectsPass prev cur)
    (effectsPass cur (effectsPass prev cur))).micLevel = _
  rw [c3, c2, c1]

/-- The event handler does not touch the mic level. -/
theorem handleBackendEvent_micLevel (m : Machine) (e : BackendEvent) :
    (handleBackendEvent m e).micLevel = m.micLevel := by
  unfold handleBackendEvent
  split_ifs <;> rfl

/-- The event handler stores `[]`, `event.levels || []`, or keeps the old
levels. -/
theorem handleBackendEvent_levels (m : Machine) (e : BackendEvent) :
    (handleBackendEvent m e).levels = [] ∨
    (handleBackendEvent m e).levels = e.levels.getD [] ∨
    (handleBackendEvent m e).levels = m.levels := by
  unfold handleBackendEvent
  split_ifs <;> simp

/-- Machine well-formedness for C4: stored levels well formed and the mic
level in `[0, 1]`. -/
def LevelsInv (m : Machine) : Prop :=
  LevelsOK m.levels ∧ 0 ≤ m.micLevel ∧ m.micLevel ≤ 1

/-- Input well-formedness, following the spec's data model: event `levels`
fields (when present) are 12 floats in `[0, 1]`, amplitudes lie in
`[0, 1]`. -/
def wfLevelsB (lv : List ℚ) : Bool :=
  lv.length == 12 && lv.all (fun x => decide (0 ≤ x) && decide (x ≤ 1))

/-- Boolean well-formedness of one input signal. -/
def wfInputB : SMInput → Bool
  | .ev e =>
    (match e.levels with
     | some lv => wfLevelsB lv
     | none => true)
  | .mic a => decide (0 ≤ a) && decide (a ≤ 1)
  | _ => true

/-- Stabilizing from a well-formed render preserves the invariant. -/
theorem levelsInv_stabilize (m cur : Machine) (hl : LevelsOK cur.levels)
    (h0 : 0 ≤ cur.micLevel) (h1 : cur.micLevel ≤ 1) :
    LevelsInv (stabilize m cur) := by
  refine ⟨?_, ?_⟩
  · rcases stabilize_levels m cur with h | h
    · rw [h]; exact hl
    · rw [h]
      right
      refine ⟨by simp, ?_⟩
      intro x hx
      rw [List.eq_of_mem_replicate hx]
      exact ⟨h0, h1⟩
  · rw [stabilize_micLevel m cur]
    exact ⟨h0, h1⟩

/-- Every well-formed input preserves the C4 invariant. -/
theorem levelsInv_step (m : Machine) (i : SMInput) (hI : LevelsInv m)
    (hw : wfInputB i = true) : LevelsInv (applyInput m i) := by
  obtain ⟨hl, h0, h1⟩ := hI
  cases i with
  | ev e =>
    show LevelsInv (processEvent m e)
    unfold processEvent
    apply levelsInv_stabilize
    · rcases handleBackendEvent_levels m e with h | h | h
      · rw [h]; left; rfl
      · rw [h]
        cases hv : e.levels with
        | none => left; rfl
        | some lv =>
          simp only [wfInputB, hv] at hw
          simp only [wfLevelsB, Bool.and_eq_true, beq_iff_eq, List.all_eq_true,
            decide_eq_true_eq] at hw
          right
          refine ⟨by simpa using hw.1, ?_⟩
          intro x hx
          have := hw.2 x (by simpa using hx)
          simpa using this
      · rw [h]; exact hl
    · rw [handleBackendEvent_micLevel m e]; exact h0
    · rw [handleBackendEvent_micLevel m e]; exact h1
  | mic a =>
    simp only [wfInputB, Bool.and_eq_true, decide_eq_true_eq] at hw
    show LevelsInv (sampleMic m a)
    unfold sampleMic
    exact levelsInv_stabilize m _ hl hw.1 hw.2
  | tick d => exact ⟨hl, h0, h1⟩
  | fireWake =>
    show LevelsInv (fireWakeHold m)
    unfold fireWakeHold
    cases hwt : m.wakeHoldT with
    | none => exact ⟨hl, h0, h1⟩
    | some t =>
      dsimp only
      split_ifs with hd
      · exact levelsInv_stabilize m _ hl h0 h1
      · exact ⟨hl, h0, h1⟩
  | fireListen =>
    show LevelsInv (fireListenIdle m)
    unfold fireListenIdle
    cases hwt : m.listenIdleT with
    | none => exact ⟨hl, h0, h1⟩
    | some t =>
      dsimp only
      split_ifs with hd
      · exact levelsInv_stabilize m _ (Or.inl rfl) h0 h1
      · exact ⟨hl, h0, h1⟩
  | fireSleep =>
    show LevelsInv (fireIdleSleep m)
    unfold fireIdleSleep
    cases hwt : m.idleSleepT with
    | none => exact ⟨hl, h0, h1⟩
    | some t =>
      dsimp only
      split_ifs with hd
      · exact levelsInv_stabilize m _ (Or.inl rfl) h0 h1
      · exact ⟨hl, h0, h1⟩

/-- The C4 invariant holds along every well-formed run. -/
theorem levelsInv_run (l : List SMInput) :
    ∀ m : Machine, (∀ i ∈ l, wfInputB i = true) → LevelsInv m →
    LevelsInv (runInputs m l) := by
  induction l with
  | nil => intro m _ hI; exact hI
  | cons i l ih =>
    intro m hw hI
    exact ih (applyInput m i)
      (fun j hj => hw j (List.mem_cons_of_mem i hj))
      (levelsInv_step m i hI (hw i (List.mem_cons_self i l)))

/-- The machine at mount, computed: `idle`, silent, with the sleep timer
armed for `t + 10000` by the first effect run. -/
theorem mountMachine_eq (t : ℕ) :
    mountMachine t = Machine.mk .idle [] 0 none t none none (some (t + 10000)) :=
  rfl

/-- The machine at mount satisfies the C4 invariant. -/
theorem levelsInv_mount (t : ℕ) : LevelsInv (mountMachine t) := by
  rw [mountMachine_eq]
  exact ⟨Or.inl rfl, by norm_num, by norm_num⟩

/-- C4: after any well-formed sequence of operations from mount (events
whose optional `levels` are 12 values in `[0,1]`, amplitude samples in
`[0,1]`, clock ticks and timer firings), the level vector handed to the
renderer has length exactly 12 and every entry lies in `[0, 1]` — for any
display frame, any blink phase. -/
theorem claim_C4 (t : ℕ) (l : List SMInput)
    (hw : ∀ i ∈ l, wfInputB i = true) (b : Bool) (frame : ℕ)
    (sinq sqrtq : ℚ → ℚ) (hs : ∀ x, -1 ≤ sinq x ∧ sinq x ≤ 1)
    (hq : ∀ x, 0 ≤ sqrtq x) :
    (emittedLevels sinq sqrtq (runInputs (mountMachine t) l) b frame).length
      = 12 ∧
    ∀ x ∈ emittedLevels sinq sqrtq (runInputs (mountMachine t) l) b frame,
      0 ≤ x ∧ x ≤ 1 := by
  obtain ⟨hl, h0, h1⟩ :=
    levelsInv_run l (mountMachine t) hw (levelsInv_mount t)
  unfold emittedLevels
  apply faceLevels_spec sinq sqrtq hs hq _ _ frame
  unfold finalLevels
  split_ifs with hc
  · right
    refine ⟨by simp, ?_⟩
    intro x hx
    rw [List.eq_of_mem_replicate hx]
    exact ⟨h0, h1⟩
  · exact hl

/-- Witness for C4: the run `[wake event, loud sample, talk with levels]`
with the zero function for `Math.sin`/`Math.sqrt`. -/
theorem claim_C4_witness :
    (emittedLevels (fun _ => (0 : ℚ)) (fun _ => (0 : ℚ))
      (runInputs (mountMachine 1)
        [.ev ⟨"wake", none⟩, .mic (mkRat 1 2),
         .ev ⟨"talk", some (List.replicate 12 (mkRat 1 2))⟩])
      false 3).length = 12 ∧
    ∀ x ∈ emittedLevels (fun _ => (0 : ℚ)) (fun _ => (0 : ℚ))
      (runInputs (mountMachine 1)
        [.ev ⟨"wake", none⟩, .mic (mkRat 1 2),
         .ev ⟨"talk", some (List.replicate 12 (mkRat 1 2))⟩])
      false 3, 0 ≤ x ∧ x ≤ 1 := by
  refine claim_C4 1 _ (by decide) false 3 _ _ ?_ ?_
  · intro x
    norm_num
  · intro x
    norm_num
